import Mathlib

/-!
# asJam `lib/convert.js`: project conversion and cycle resolution

A shallow embedding of `get_files`, `getFakeName`, `getFakeFile` and `project`
from `lib/convert.js`.  The modules that `convert.js` requires but that are not
part of the embedded file (`parse`, `print`, `scc`, `NameTable`, `report`, `fs`)
are parameters, collected in `Env`.  Mutable JavaScript objects are threaded
explicitly: the reporter has a state of type `R`, the name table a state of
type `NT`, and the `output` object is an insertion-ordered association list.
-/

namespace AsJam

/-! ## Strings and regular expressions used by `convert.js` -/

/-- The regular-expression test `/<suffix>$/.test(s)` for a literal suffix: without the
multi-line flag `$` matches at the end of the input only. -/
def endsWith (s suffix : String) : Bool :=
  suffix.data.isSuffixOf s.data

/-- The regular-expression test `/^\./.test(s)`. -/
def startsWithDot (s : String) : Bool :=
  match s.data with
  | c :: _ => c == '.'
  | [] => false

/-- The call `s.replace(/<suffix>$/, replacement)` for a literal suffix: the suffix, when
present, is replaced, and `s` is returned unchanged otherwise. -/
def replaceSuffix (s suffix replacement : String) : String :=
  if suffix.data.isSuffixOf s.data then
    String.mk (s.data.take (s.data.length - suffix.data.length) ++ replacement.data)
  else s

/-- The arguments of `path.join(a, b)` joined with a slash, an empty argument left out:
the string `path.join` hands to its normalisation. -/
def join_names (a b : String) : String :=
  if a = "" then b else if b = "" then a else a ++ "/" ++ b

/-- The parts of a path between its slashes, as `path.split("/")` gives them. -/
def split_path : List Char → List (List Char)
  | [] => [[]]
  | c :: cs =>
    if c = '/' then [] :: split_path cs
    else
      match split_path cs with
      | [] => [[c]]
      | part :: parts => (c :: part) :: parts

/-- One step of the normalisation of Node over the parts of a path, the parts kept so
far being a stack: an empty part and `.` are dropped, `..` removes the part before it
(and is kept where there is none to remove and the path is relative), any other part is
kept. -/
def push_part (allowAboveRoot : Bool) (stack : List (List Char)) (part : List Char) :
    List (List Char) :=
  if part = [] ∨ part = ['.'] then stack
  else if part = ['.', '.'] then
    match stack with
    | top :: below => if top = ['.', '.'] then part :: stack else below
    | [] => if allowAboveRoot then [part] else []
  else part :: stack

/-- The parts of a path after normalisation. -/
def normalize_parts (allowAboveRoot : Bool) (parts : List (List Char)) : List (List Char) :=
  (parts.foldl (push_part allowAboveRoot) []).reverse

/-- The call `parts.join("/")`. -/
def join_parts : List (List Char) → List Char
  | [] => []
  | [part] => part
  | part :: parts => part ++ '/' :: join_parts parts

/-- The call `path.normalize(path)` of Node for POSIX paths. -/
def normalize (path : String) : String :=
  if path.data = [] then "."
  else
    let isAbsolute := decide (path.data.head? = some '/')
    let trailingSeparator := decide (path.data.getLast? = some '/')
    let body := join_parts (normalize_parts (!isAbsolute) (split_path path.data))
    if body = [] then
      if isAbsolute then "/" else if trailingSeparator then "./" else "."
    else
      String.mk ((if isAbsolute then ['/'] else []) ++ body ++
        (if trailingSeparator then ['/'] else []))

/-- The call `path.join(a, b)` of Node for POSIX paths: the arguments that are not empty
are joined with a slash and the result is normalised. -/
def path_join (a b : String) : String :=
  normalize (join_names a b)

/-! ## Abstract syntax trees and the `output` object -/

/-- JavaScript values that make up an AST: nested arrays of strings and `null`, and
`undefined` (what `source_asts[i]` holds after a parse failure and what reading a
missing key of `output` gives). -/
inductive Ast where
  | undefined : Ast
  | null : Ast
  | str (s : String) : Ast
  | arr (items : List Ast) : Ast

mutual
/-- Decidable equality of ASTs. -/
def Ast.decEq : (a b : Ast) → Decidable (a = b)
  | .undefined, .undefined => isTrue rfl
  | .undefined, .null => isFalse (by intro h; cases h)
  | .undefined, .str _ => isFalse (by intro h; cases h)
  | .undefined, .arr _ => isFalse (by intro h; cases h)
  | .null, .undefined => isFalse (by intro h; cases h)
  | .null, .null => isTrue rfl
  | .null, .str _ => isFalse (by intro h; cases h)
  | .null, .arr _ => isFalse (by intro h; cases h)
  | .str _, .undefined => isFalse (by intro h; cases h)
  | .str _, .null => isFalse (by intro h; cases h)
  | .str s, .str t =>
    if h : s = t then isTrue (by rw [h]) else isFalse (by intro e; cases e; exact h rfl)
  | .str _, .arr _ => isFalse (by intro h; cases h)
  | .arr _, .undefined => isFalse (by intro h; cases h)
  | .arr _, .null => isFalse (by intro h; cases h)
  | .arr _, .str _ => isFalse (by intro h; cases h)
  | .arr xs, .arr ys =>
    match Ast.decEqList xs ys with
    | isTrue h => isTrue (by rw [h])
    | isFalse h => isFalse (by intro e; cases e; exact h rfl)
/-- Decidable equality of lists of ASTs. -/
def Ast.decEqList : (xs ys : List Ast) → Decidable (xs = ys)
  | [], [] => isTrue rfl
  | [], _ :: _ => isFalse (by intro h; cases h)
  | _ :: _, [] => isFalse (by intro h; cases h)
  | x :: xs, y :: ys =>
    match Ast.decEq x y, Ast.decEqList xs ys with
    | isTrue h, isTrue hs => isTrue (by rw [h, hs])
    | isFalse h, _ => isFalse (by intro e; cases e; exact h rfl)
    | _, isFalse hs => isFalse (by intro e; cases e; exact hs rfl)
end

instance : DecidableEq Ast := Ast.decEq

/-- The JavaScript object `output`: string keys in insertion order.  Every key that
`project` writes ends in `.js`, so none is an array index that JavaScript would move to
the front. -/
abbrev Output := List (String × Ast)

/-- The read `output[name]`: `undefined` when the key is missing. -/
def Output.get : Output → String → Ast
  | [], _ => Ast.undefined
  | (k, v) :: rest, name => if k = name then v else Output.get rest name

/-- The assignment `output[name] = ast`: an existing key keeps its position, a new key
is appended. -/
def Output.set : Output → String → Ast → Output
  | [], name, ast => [(name, ast)]
  | (k, v) :: rest, name, ast =>
    if k = name then (k, ast) :: rest else (k, v) :: Output.set rest name ast

/-- The call `Object.keys(output)`. -/
def Output.keys (output : Output) : List String :=
  output.map Prod.fst

/-! ## The directory tree and `get_files` -/

/-- What `fs.readdirSync` and `fs.statSync` show of a directory: its entries in the
order `readdirSync` lists them, each a plain file or a directory with entries of its
own. -/
inductive FsNode where
  | file (name : String) : FsNode
  | dir (name : String) (children : List FsNode) : FsNode

mutual
/-- What the callback of `children.forEach` in `get_files` adds to `files` for one
entry: the name of a plain file, or for a directory the result of the recursive call
`get_files(full_filename, filename, filter_func)`. -/
def child_files (filter_func : String → Bool) : FsNode → List String
  | .file filename => [filename]
  | .dir filename children =>
    ((forEach_children filter_func children).filter filter_func).map
      (fun name => path_join filename name)
termination_by structural n => n
/-- The array `files` after the loop `children.forEach` of `get_files`. -/
def forEach_children (filter_func : String → Bool) : List FsNode → List String
  | [] => []
  | child :: rest => child_files filter_func child ++ forEach_children filter_func rest
termination_by structural l => l
end

/-- The function `get_files(root, prefix, filter_func)`, where `children` is what
`fs.readdirSync(root)` lists. -/
def get_files (children : List FsNode) (pfx : String) (filter_func : String → Bool) :
    List String :=
  ((forEach_children filter_func children).filter filter_func).map
    (fun filename => path_join pfx filename)

/-! ## `getFakeName` -/

/-- The alternatives of the group in the regular expression of `getFakeName`. -/
def fakeNames : List String :=
  ["JSONEncoder", "JSONDecoder", "JSONParseError", "JSONToken", "JSONTokenizer",
    "JSONTokenType"]

/-- The class `\w` of regular expressions. -/
def isWordChar (c : Char) : Bool :=
  c.isAlphanum || c == '_'

/-- The function `getFakeName`: the regular expression matches when the file name ends in
`com/adobe/serialization/json/<name>.as` for one of the alternatives and a word boundary
precedes `com` (the start of the string or a character outside `\w`); the result is the
captured alternative, or `null`. -/
def getFakeName (filename : String) : Option String :=
  fakeNames.find? (fun name =>
    let suffix := ("com/adobe/serialization/json/" ++ name ++ ".as").data
    suffix.isSuffixOf filename.data &&
      match (filename.data.take (filename.data.length - suffix.length)).getLast? with
      | none => true
      | some c => !isWordChar c)

/-! ## Collaborators of `project` -/

/-- A symbol object as `printer.get_exports` returns it; `project` writes its field
`export_path` before handing it to the name table. -/
structure Symbol where
  ident : String
  export_path : Option String
  deriving DecidableEq

/-- What `project` throws: the `TypeError` of reading a property of `undefined`, or an
`Error` made with `new Error(message)`. -/
inductive Thrown where
  | TypeError : Thrown
  | Error (message : String) : Thrown
  deriving DecidableEq

/-- The argument `options` of `project`. -/
structure Options (R : Type) where
  reporter : Option R
  ignore_dot_files : Bool

/-- The modules `convert.js` requires.  `R` is the state of a reporter object, `NT` the
state of a name table, `E` what the parser throws. -/
structure Env (R NT E : Type) where
  /-- The call `fs.readFileSync(filename, "utf8")`. -/
  readFileSync : String → String
  /-- The value of `__dirname`. -/
  dirname : String
  /-- The call `parser.parse(source, null, null, reporter)`: an AST or an exception,
  and the reporter afterwards. -/
  parse : String → R → Except E Ast × R
  /-- The call `printer.get_exports(ast)`: pairs of a package name and a symbol or
  `null`. -/
  get_exports : Ast → List (String × Option Symbol)
  /-- The call `name_table.add(packageName, name)`. -/
  add : NT → String → Symbol → NT
  /-- The call `name_table.create_package(packageName)`. -/
  create_package : NT → String → NT
  /-- The value of `new NameTable()`. -/
  new_NameTable : NT
  /-- The call `printer.rewrite(ast, name_table, reporter)`: the rewritten AST and the
  reporter afterwards. -/
  rewrite : Ast → NT → R → Ast × R
  /-- The call `Object.keys(printer.get_dependency_weights(ast))`. -/
  get_dependency_weights : Ast → List String
  /-- The call `scc.findFlat(flatDeps)`. -/
  findFlat : List (String × List String) → List (List String)
  /-- The call `printer.merge_modules(moduleNames, asts)`. -/
  merge_modules : List String → List Ast → Ast
  /-- The call `reporter.step(name, message, context)`. -/
  step : R → String → String → Option (List (String × Ast)) → R
  /-- The call `reporter.error(name, e)`. -/
  error : R → String → E → R
  /-- The truthiness of `reporter.hasError`. -/
  hasError : R → Bool
  /-- The value of `new report.NullReporter()`. -/
  NullReporter : R

variable {R NT E : Type}

/-! ## `project`, first half: reading, parsing, exports, rewriting -/

/-- The filter function `project` passes to `get_files`. -/
def filter_func (options : Options R) (filename : String) : Bool :=
  if !endsWith filename ".as" then false
  else if startsWithDot filename && options.ignore_dot_files then false
  else true

/-- The function `getFakeFile`. -/
def getFakeFile (env : Env R NT E) (fakeName : String) : String :=
  env.readFileSync (env.dirname ++ "/fake/" ++ fakeName ++ ".as")

/-- The array `sources` and the reporter after `source_filenames.map`. -/
def read_sources (env : Env R NT E) : List String → R → List String × R
  | [], reporter => ([], reporter)
  | filename :: rest, reporter =>
    let reporter1 := env.step reporter "read .as file" ("reading " ++ filename)
      (some [("filename", Ast.str filename)])
    let source := match getFakeName filename with
      | some fakeName => getFakeFile env fakeName
      | none => env.readFileSync filename
    let tail := read_sources env rest reporter1
    (source :: tail.1, tail.2)

/-- The callback of `sources.map` for one source: the step, then `parser.parse` inside
`try`; the `catch` reports the exception and falls through, so the entry is
`undefined`. -/
def parse_source (env : Env R NT E) (source source_file : String) (reporter : R) :
    Ast × R :=
  let reporter1 := env.step reporter "parse .as file" ("parsing " ++ source_file)
    (some [("filename", Ast.str source_file), ("source", Ast.str source)])
  match env.parse source reporter1 with
  | (Except.ok ast, reporter2) => (ast, reporter2)
  | (Except.error e, reporter2) => (Ast.undefined, env.error reporter2 "parse error" e)

/-- The array `source_asts` and the reporter after `sources.map`; the list pairs each
source with `source_files[i]`. -/
def parse_sources (env : Env R NT E) : List (String × String) → R → List Ast × R
  | [], reporter => ([], reporter)
  | (source, source_file) :: rest, reporter =>
    let head := parse_source env source source_file reporter
    let tail := parse_sources env rest head.2
    (head.1 :: tail.1, tail.2)

/-- The callback of `exports.forEach` for one export of `source_file`. -/
def register_export (env : Env R NT E) (source_file : String) (name_table : NT)
    (export_ : String × Option Symbol) : NT :=
  match export_.2 with
  | some name =>
    env.add name_table export_.1
      { name with export_path := some (replaceSuffix source_file ".as" "") }
  | none => env.create_package name_table export_.1

/-- The name table and the reporter after `source_asts.forEach` of the block
"Build exports"; the list pairs each AST with `source_files[i]`. -/
def build_exports (env : Env R NT E) : List (Ast × String) → NT → R → NT × R
  | [], name_table, reporter => (name_table, reporter)
  | (ast, source_file) :: rest, name_table, reporter =>
    let reporter1 := env.step reporter "build .as exports"
      ("building exports from " ++ source_file)
      (some [("filename", Ast.str source_file), ("ast", ast)])
    let name_table1 := (env.get_exports ast).foldl (register_export env source_file)
      name_table
    build_exports env rest name_table1 reporter1

/-- The array `rewritten_asts` and the reporter after `source_asts.map` of the block
"Rewrite"; the list pairs each AST with `source_files[i]`. -/
def rewrite_asts (env : Env R NT E) (name_table : NT) : List (Ast × String) → R → List Ast × R
  | [], reporter => ([], reporter)
  | (ast, source_file) :: rest, reporter =>
    let reporter1 := env.step reporter "rewrite .as ast" ("rewriting " ++ source_file)
      (some [("filename", Ast.str source_file), ("ast", ast)])
    let head := env.rewrite ast name_table reporter1
    let tail := rewrite_asts env name_table rest head.2
    (head.1 :: tail.1, tail.2)

/-- The locals of `project` when it reaches the comment "Build output object". -/
structure Rewritten (R NT : Type) where
  source_files : List String
  source_asts : List Ast
  name_table : NT
  rewritten_asts : List Ast
  reporter : R

/-- The array `source_files` of `project`. -/
def source_files (tree : List FsNode) (options : Options R) : List String :=
  get_files tree "" (filter_func options)

/-- The array `source_asts` and the reporter when `project` reaches its first test of
`reporter.hasError`. -/
def parse_phase (env : Env R NT E) (tree : List FsNode) (root_path : String)
    (options : Options R) : List Ast × R :=
  let reporter := options.reporter.getD env.NullReporter
  let source_filenames := (source_files tree options).map (fun filename =>
    path_join root_path filename)
  let sources := read_sources env source_filenames reporter
  let parsed := parse_sources env (sources.1.zip (source_files tree options)) sources.2
  (parsed.1, env.step parsed.2 "parse .as files" "parsing" none)

/-- The function `project` up to its second test of `reporter.hasError`. -/
def rewrite_project (env : Env R NT E) (tree : List FsNode) (root_path : String)
    (name_table : Option NT) (options : Option (Options R)) :
    Except Thrown (Rewritten R NT) :=
  match options with
  | none => Except.error Thrown.TypeError
  | some opts =>
    let name_table0 := name_table.getD env.new_NameTable
    let parsed := parse_phase env tree root_path opts
    if env.hasError parsed.2 then
      Except.error (Thrown.Error "Parse error prevented project from being converted")
    else
      let built := build_exports env (parsed.1.zip (source_files tree opts)) name_table0
        parsed.2
      let rewritten := rewrite_asts env built.1 (parsed.1.zip (source_files tree opts))
        built.2
      let reporter := env.step rewritten.2 "rewrite .as asts" "converting" none
      if env.hasError reporter then
        Except.error (Thrown.Error "Rewriting error prevented project from being converted")
      else
        Except.ok
          { source_files := source_files tree opts
            source_asts := parsed.1
            name_table := built.1
            rewritten_asts := rewritten.1
            reporter := reporter }

/-! ## `project`, second half: output object, dependency graph, cycles -/

/-- The value of `output_file` for a source file: `source_files[i].replace(/\.as$/, ".js")`. -/
def output_file (source_file : String) : String :=
  replaceSuffix source_file ".as" ".js"

/-- The object `output` after `rewritten_asts.forEach`, started from `output`; the list
pairs each rewritten AST with `source_files[i]`. -/
def build_output : List (Ast × String) → Output → Output
  | [], output => output
  | (ast, source_file) :: rest, output =>
    build_output rest (output.set (output_file source_file) ast)

/-- The object `flatDeps`: one entry per key of `output`, in the order of
`Object.keys(output)`. -/
def build_flatDeps (env : Env R NT E) (output : Output) : List (String × List String) :=
  output.keys.map (fun outputPath =>
    (outputPath, env.get_dependency_weights (output.get outputPath)))

/-- The value of `mergedName` for the component at position `idx`. -/
def mergedName (idx : Nat) : String :=
  "merged_" ++ Nat.repr idx

/-- The array literal `newAst`, the module that redirects into the merged module. -/
def newAst (mergedName moduleName : String) : Ast :=
  .arr [.str "toplevel", .arr [.arr [.str "stat", .arr [.str "call",
    .arr [.str "name", .str "define"], .arr [
      .arr [.str "array", .arr [.arr [.str "string", .str mergedName]]],
      .arr [.str "function", .null, .arr [.arr [.str "merged"]], .arr [
        .arr [.str "stat", .arr [.str "return",
          .arr [.str "sub", .arr [.str "name", .str "merged"],
            .arr [.str "string", .str moduleName]]]]]]]]]]]

/-- The object `output` after the inner loop `scc.forEach`; the list pairs each member
with `moduleNames[i]`. -/
def write_shims (mergedName : String) : List (String × String) → Output → Output
  | [], output => output
  | (name, moduleName) :: rest, output =>
    write_shims mergedName rest (output.set name (newAst mergedName moduleName))

/-- The callback of `sccs.forEach` for the component `scc` at position `idx`. -/
def resolve_scc (env : Env R NT E) (scc : List String) (idx : Nat) (state : Output × R) :
    Output × R :=
  if scc.length = 1 then state
  else
    let asts := scc.map (fun name => state.1.get name)
    let moduleNames := scc.map (fun name => replaceSuffix name ".js" "")
    let reporter := env.step state.2 "cycles"
      ("resolving circular dependencies in: " ++ ", ".intercalate moduleNames)
      (some [("moduleNames", Ast.arr (moduleNames.map Ast.str))])
    let merged := env.merge_modules moduleNames asts
    let output := state.1.set (mergedName idx ++ ".js") merged
    (write_shims (mergedName idx) (scc.zip moduleNames) output, reporter)

/-- The loop `sccs.forEach` over the components from position `idx` on. -/
def resolve_sccs (env : Env R NT E) : List (List String) → Nat → Output × R → Output × R
  | [], _, state => state
  | scc :: rest, idx, state => resolve_sccs env rest (idx + 1) (resolve_scc env scc idx state)

/-- The object `output` before cycle resolution. -/
def initial_output (rw : Rewritten R NT) : Output :=
  build_output (rw.rewritten_asts.zip rw.source_files) []

/-- The array `sccs`. -/
def project_sccs (env : Env R NT E) (rw : Rewritten R NT) : List (List String) :=
  env.findFlat (build_flatDeps env (initial_output rw))

/-- The function `project` from the comment "Build output object" to its `return`. -/
def link_project (env : Env R NT E) (rw : Rewritten R NT) : Output :=
  let output := initial_output rw
  let reporter := env.step rw.reporter "dependency graph" "building dependency graph" none
  let sccs := env.findFlat (build_flatDeps env output)
  (resolve_sccs env sccs 0 (output, reporter)).1

/-- The function `project(root_path, name_table, options)`; a missing argument is
`none`. -/
def project (env : Env R NT E) (tree : List FsNode) (root_path : String)
    (name_table : Option NT) (options : Option (Options R)) : Except Thrown Output :=
  match rewrite_project env tree root_path name_table options with
  | Except.error e => Except.error e
  | Except.ok rw => Except.ok (link_project env rw)

/-! ## Notions used to state the properties -/

/-- The array `sources` of `project`. -/
def project_sources (env : Env R NT E) (tree : List FsNode) (root_path : String)
    (options : Options R) : List String :=
  (read_sources env ((source_files tree options).map (fun filename =>
    path_join root_path filename)) (options.reporter.getD env.NullReporter)).1

/-- A path of the form `merged_<k>.js`. -/
def isMergedPath (path : String) : Prop :=
  ∃ k : Nat, path = mergedName k ++ ".js"

/-- A call of the name table. -/
inductive NameTableCall where
  | add (packageName : String) (name : Symbol) : NameTableCall
  | create_package (packageName : String) : NameTableCall
  deriving DecidableEq

/-- The effect of one call on a name table. -/
def apply_call (env : Env R NT E) (name_table : NT) : NameTableCall → NT
  | .add packageName name => env.add name_table packageName name
  | .create_package packageName => env.create_package name_table packageName

/-- The call that registers one export of the file `source_file`: `add` for a symbol,
with the given `export_path` written into it, and `create_package` for `null`. -/
def export_call (export_path : String) (export_ : String × Option Symbol) : NameTableCall :=
  match export_.2 with
  | some name => NameTableCall.add export_.1 { name with export_path := some export_path }
  | none => NameTableCall.create_package export_.1

/-- The calls that register every export of every file, in source-file order; the list
pairs each AST with its source file. -/
def export_calls (env : Env R NT E) (files : List (Ast × String)) : List NameTableCall :=
  files.flatMap (fun file =>
    (env.get_exports file.1).map (export_call (replaceSuffix file.2 ".as" "")))

/-- The keys `merged_<idx>.js` that the components from position `idx` on add, in the
order in which they are added. -/
def merged_keys : List (List String) → Nat → List String
  | [], _ => []
  | scc :: rest, idx =>
    if scc.length = 1 then merged_keys rest (idx + 1)
    else (mergedName idx ++ ".js") :: merged_keys rest (idx + 1)

/-- The dependency array of a module `define([...], function ...)`, if the AST is one. -/
def define_dependencies : Ast → Option (List Ast)
  | .arr [.str "toplevel", .arr [.arr [.str "stat", .arr [.str "call",
      .arr [.str "name", .str "define"], .arr [.arr [.str "array", .arr deps], _]]]]] =>
    some deps
  | _ => none

/-- A name a directory entry can have: not empty, no slash, neither `.` nor `..`. -/
def valid_name (name : String) : Bool :=
  name.data ≠ [] && !name.data.contains '/' && name ≠ "." && name ≠ ".."

/-- The name of a directory entry. -/
def FsNode.name : FsNode → String
  | .file name => name
  | .dir name _ => name

mutual
/-- A well-formed entry: valid names throughout and no two entries of one directory
with the same name. -/
def FsNode.wf : FsNode → Bool
  | .file name => valid_name name
  | .dir name children => valid_name name && wf_children children
termination_by structural n => n
/-- Well-formed entries of one directory. -/
def wf_children : List FsNode → Bool
  | [] => true
  | child :: rest =>
    child.wf && !(rest.map FsNode.name).contains child.name && wf_children rest
termination_by structural l => l
end

mutual
/-- The plain files in or below an entry, each as the list of names on the way to it. -/
def FsNode.files_below : FsNode → List (List String)
  | .file name => [[name]]
  | .dir name children => (files_under children).map (fun names => name :: names)
termination_by structural n => n
/-- The plain files at any depth under the entries of a directory, each as the list of
names from that directory to the file. -/
def files_under : List FsNode → List (List String)
  | [] => []
  | child :: rest => child.files_below ++ files_under rest
termination_by structural l => l
end

/-- The relative path spelled by a list of names. -/
def rel_path : List String → String
  | [] => ""
  | [name] => name
  | name :: rest => join_names name (rel_path rest)

/-- The files `project` converts, by the names on the way to them: the file name ends in
`.as`, and with `ignore_dot_files` no name on the way, the file name included, begins
with a dot. -/
def is_source (options : Options R) (names : List String) : Bool :=
  endsWith (names.getLastD "") ".as" &&
    !(options.ignore_dot_files && names.any startsWithDot)

/-! ## A concrete project for the examples -/

/-- The vertices reachable from `v` in the graph `g`. -/
def demo_reachable (g : List (String × List String)) (v : String) : List String :=
  (List.range g.length).foldl (fun seen _ =>
    seen.foldl (fun acc u =>
      ((g.lookup u).getD []).foldl (fun a w => if w ∈ a then a else a ++ [w]) acc) seen) [v]

/-- The strongly connected component of `v` in `g`, in the order of the keys of `g`. -/
def demo_component (g : List (String × List String)) (v : String) : List String :=
  (g.map Prod.fst).filter (fun w =>
    decide (w ∈ demo_reachable g v) && decide (v ∈ demo_reachable g w))

/-- An instance of `scc.findFlat` for the examples: the strongly connected components of
the graph, each once, in the order in which their first vertex occurs among the keys. -/
def demo_findFlat (g : List (String × List String)) : List (List String) :=
  (g.map Prod.fst).foldl (fun comps v =>
    if comps.any (fun c => decide (v ∈ c)) then comps else comps ++ [demo_component g v]) []

/-- The source text of an AST of the examples. -/
def demo_source : Ast → String
  | .arr [.str "toplevel", .str source] => source
  | .arr [.str "rewritten", .arr [.str "toplevel", .str source]] => source
  | _ => ""

/-- Collaborators for the examples.  Every file holds its own name as text; the parser
throws on the texts in `unparsable`; exports and dependencies are looked up by text;
the name table is the list of the calls made on it; the reporter state is the flag
`hasError`, which `error` raises when `loud`. -/
def demoEnv (unparsable : List String)
    (exports : List (String × List (String × Option Symbol)))
    (deps : List (String × List String)) (loud : Bool) :
    Env Bool (List NameTableCall) String where
  readFileSync := fun filename => filename
  dirname := "lib"
  parse := fun source reporter =>
    if source ∈ unparsable then (Except.error "syntax error", reporter)
    else (Except.ok (.arr [.str "toplevel", .str source]), reporter)
  get_exports := fun ast => (exports.lookup (demo_source ast)).getD []
  add := fun name_table packageName name => name_table ++ [NameTableCall.add packageName name]
  create_package := fun name_table packageName =>
    name_table ++ [NameTableCall.create_package packageName]
  new_NameTable := []
  rewrite := fun ast _ reporter => (.arr [.str "rewritten", ast], reporter)
  get_dependency_weights := fun ast => (deps.lookup (demo_source ast)).getD []
  findFlat := demo_findFlat
  merge_modules := fun moduleNames asts =>
    .arr [.str "merged", .arr (moduleNames.map Ast.str), .arr asts]
  step := fun reporter _ _ _ => reporter
  error := fun reporter _ _ => reporter || loud
  hasError := fun reporter => reporter
  NullReporter := false

/-- The options of the examples: no reporter given, dot files not ignored. -/
def demo_options : Options Bool :=
  { reporter := none, ignore_dot_files := false }

/-- The locals of `project` after rewriting, for a flat directory of the examples whose
files all parse and that exports nothing. -/
def demo_rewritten (files : List String) : Rewritten Bool (List NameTableCall) :=
  { source_files := files
    source_asts := files.map (fun file => Ast.arr [.str "toplevel", .str ("p/" ++ file)])
    name_table := []
    rewritten_asts := files.map (fun file =>
      Ast.arr [.str "rewritten", .arr [.str "toplevel", .str ("p/" ++ file)]])
    reporter := false }

/-- A project of three files: `a` and `b` depend on each other, `d` on nothing. -/
def cycle_tree : List FsNode :=
  [.file "a.as", .file "b.as", .file "d.as"]

/-- The collaborators for `cycle_tree`. -/
def cycle_env : Env Bool (List NameTableCall) String :=
  demoEnv [] [] [("p/a.as", ["b.js"]), ("p/b.as", ["a.js"])] true

/-- A project of one file that depends on itself. -/
def self_tree : List FsNode :=
  [.file "a.as"]

/-- The collaborators for `self_tree`. -/
def self_env : Env Bool (List NameTableCall) String :=
  demoEnv [] [] [("p/a.as", ["a.js"])] true

/-- A project of four files with two cycles, `b` with `merged_1` and `c` with `d`. -/
def shim_clash_tree : List FsNode :=
  [.file "b.as", .file "c.as", .file "d.as", .file "merged_1.as"]

/-- The collaborators for `shim_clash_tree`. -/
def shim_clash_env : Env Bool (List NameTableCall) String :=
  demoEnv [] []
    [("p/b.as", ["merged_1.js"]), ("p/merged_1.as", ["b.js"]),
      ("p/c.as", ["d.js"]), ("p/d.as", ["c.js"])] true

/-- A project of three files: `a` and `b` depend on each other, `merged_0` on nothing. -/
def trivial_clash_tree : List FsNode :=
  [.file "a.as", .file "b.as", .file "merged_0.as"]

/-- A project of two files, `b` and `merged_0`, that depend on each other. -/
def key_clash_tree : List FsNode :=
  [.file "b.as", .file "merged_0.as"]

/-- The collaborators for `key_clash_tree`. -/
def key_clash_env : Env Bool (List NameTableCall) String :=
  demoEnv [] [] [("p/b.as", ["merged_0.js"]), ("p/merged_0.as", ["b.js"])] true

/-- A project of one file that exports a symbol and declares a package. -/
def export_env : Env Bool (List NameTableCall) String :=
  demoEnv []
    [("p/a.as", [("pkg", some { ident := "foo", export_path := none }), ("lib", none)])]
    [] true

/-- A project of two files, the second of which does not parse. -/
def broken_tree : List FsNode :=
  [.file "a.as", .file "b.as", .file "c.as"]

/-- The collaborators for `broken_tree`: the parser throws on the text of `b.as`. -/
def broken_env : Env Bool (List NameTableCall) String :=
  demoEnv ["p/b.as"] [] [] true

/-- A directory tree with a source file in a directory whose name begins with a dot. -/
def dot_tree : List FsNode :=
  [.dir ".hidden" [.file "x.as"], .dir "lib" [.file "y.as", .file ".z.as", .file "notes.txt"]]

/-- Options that ask to ignore dot files. -/
def dot_options : Options Bool :=
  { reporter := none, ignore_dot_files := true }

/-- The locals of `project` after rewriting in the project of `export_env`. -/
def export_rewritten : Rewritten Bool (List NameTableCall) :=
  { demo_rewritten ["a.as"] with
    name_table :=
      [NameTableCall.add "pkg" { ident := "foo", export_path := some "a" },
        NameTableCall.create_package "lib"] }

/-- A project of two files: `y.as`, read first, and `x.as`, which exports `foo`. -/
def order_tree : List FsNode :=
  [.file "y.as", .file "x.as"]

/-- The collaborators for `order_tree`; the rewriter records in the AST how many calls
the name table it is given has seen. -/
def order_env : Env Bool (List NameTableCall) String :=
  { demoEnv [] [("p/x.as", [("pkg", some { ident := "foo", export_path := none })])] [] true with
    rewrite := fun ast name_table reporter =>
      (.arr [.str "rewritten", ast, .str (Nat.repr name_table.length)], reporter) }

/-- The locals of `project` after rewriting in the project `order_tree`. -/
def order_rewritten : Rewritten Bool (List NameTableCall) :=
  { source_files := ["y.as", "x.as"]
    source_asts := [.arr [.str "toplevel", .str "p/y.as"], .arr [.str "toplevel", .str "p/x.as"]]
    name_table := [NameTableCall.add "pkg" { ident := "foo", export_path := some "x" }]
    rewritten_asts :=
      [.arr [.str "rewritten", .arr [.str "toplevel", .str "p/y.as"], .str "1"],
        .arr [.str "rewritten", .arr [.str "toplevel", .str "p/x.as"], .str "1"]]
    reporter := false }

/-- The collaborators for `broken_tree` with a reporter whose `error` leaves `hasError`
as it is: the parser throws on the text of `b.as`. -/
def silent_env : Env Bool (List NameTableCall) String :=
  demoEnv ["p/b.as"] [] [] false

/-- Options with a reporter supplied by the caller, its `hasError` unset. -/
def silent_options : Options Bool :=
  { reporter := some false, ignore_dot_files := false }

/-- The entry of `source_asts` for a source, given what `parser.parse` did on it: the AST
it returned, or `undefined` when it threw. -/
def parsed_entry {E : Type} : Except E Ast → Ast
  | Except.ok ast => ast
  | Except.error _ => Ast.undefined

/-! ## Strings -/

theorem string_ext_data {s t : String} (h : s.data = t.data) : s = t := by
  cases s; cases t; simp_all

theorem endsWith_iff (s suffix : String) :
    endsWith s suffix = true ↔ suffix.data <:+ s.data := by
  simp [endsWith]

theorem replaceSuffix_data_of_suffix {s suffix : String} (replacement : String)
    (h : suffix.data <:+ s.data) :
    (replaceSuffix s suffix replacement).data =
      s.data.take (s.data.length - suffix.data.length) ++ replacement.data := by
  have h1 : suffix.data.isSuffixOf s.data = true := by simpa using h
  simp [replaceSuffix, h1]

theorem take_append_of_suffix {a b : List Char} (h : a <:+ b) :
    b.take (b.length - a.length) ++ a = b :=
  List.suffix_iff_eq_append.mp h

/-- Replacing a literal suffix by one text is injective on the strings that end in the
suffix. -/
theorem replaceSuffix_injOn {s t suffix : String} (replacement : String)
    (hs : suffix.data <:+ s.data) (ht : suffix.data <:+ t.data)
    (h : replaceSuffix s suffix replacement = replaceSuffix t suffix replacement) : s = t := by
  have h1 := congrArg String.data h
  rw [replaceSuffix_data_of_suffix _ hs, replaceSuffix_data_of_suffix _ ht] at h1
  have h2 := List.append_inj_left' h1 rfl
  apply string_ext_data
  rw [← take_append_of_suffix hs, ← take_append_of_suffix ht, h2]

/-- Replacing the suffix twice: first by `mid`, then `mid` by `last`, is replacing it by
`last`. -/
theorem replaceSuffix_replaceSuffix {s suffix : String} (mid last : String)
    (hs : suffix.data <:+ s.data) :
    replaceSuffix (replaceSuffix s suffix mid) mid last = replaceSuffix s suffix last := by
  apply string_ext_data
  have hmid : mid.data <:+ (replaceSuffix s suffix mid).data := by
    rw [replaceSuffix_data_of_suffix _ hs]
    exact List.suffix_append _ _
  rw [replaceSuffix_data_of_suffix _ hmid, replaceSuffix_data_of_suffix _ hs,
    replaceSuffix_data_of_suffix _ hs]
  simp

theorem digitChar_toNat (k : Nat) (h : k < 10) : (Nat.digitChar k).toNat - 48 = k := by
  interval_cases k <;> rfl

theorem toDigitsCore_append (fuel : Nat) : ∀ (n : Nat) (ds : List Char),
    Nat.toDigitsCore 10 fuel n ds = Nat.toDigitsCore 10 fuel n [] ++ ds := by
  induction fuel with
  | zero => intro n ds; simp [Nat.toDigitsCore]
  | succ fuel ih =>
    intro n ds
    simp only [Nat.toDigitsCore]
    split
    · simp
    · rw [ih (n / 10) (Nat.digitChar (n % 10) :: ds), ih (n / 10) [Nat.digitChar (n % 10)]]
      simp

theorem toDigitsCore_value (fuel : Nat) : ∀ (n : Nat), n < fuel →
    (Nat.toDigitsCore 10 fuel n []).foldl (fun acc c => acc * 10 + (c.toNat - 48)) 0 = n := by
  induction fuel with
  | zero => intro n h; omega
  | succ fuel ih =>
    intro n h
    simp only [Nat.toDigitsCore]
    split
    · rename_i h0
      simp only [List.foldl_cons, List.foldl_nil, Nat.zero_mul, Nat.zero_add]
      rw [digitChar_toNat _ (Nat.mod_lt _ (by decide))]
      omega
    · rename_i h0
      rw [toDigitsCore_append, List.foldl_append, ih (n / 10) (by omega)]
      simp only [List.foldl_cons, List.foldl_nil]
      rw [digitChar_toNat _ (Nat.mod_lt _ (by decide))]
      omega

theorem repr_injective {a b : Nat} (h : Nat.repr a = Nat.repr b) : a = b := by
  have h1 : Nat.toDigits 10 a = Nat.toDigits 10 b := by
    have := congrArg String.data h
    simpa [Nat.repr, List.asString] using this
  have ha := toDigitsCore_value (a + 1) a (by omega)
  have hb := toDigitsCore_value (b + 1) b (by omega)
  unfold Nat.toDigits at h1
  rw [h1] at ha
  omega

theorem mergedKey_injective {a b : Nat} (h : mergedName a ++ ".js" = mergedName b ++ ".js") :
    a = b := by
  have h1 := congrArg String.data h
  simp only [mergedName, String.data_append] at h1
  have h2 := List.append_inj_left' h1 rfl
  have h3 := List.append_inj_right h2 rfl
  exact repr_injective (string_ext_data h3)

/-- A path of the form `merged_<k>.js` begins with `merged_`. -/
theorem isMergedPath_start {path : String} (h : isMergedPath path) :
    "merged_".data <+: path.data := by
  obtain ⟨k, rfl⟩ := h
  simp only [mergedName, String.data_append, List.append_assoc]
  exact List.prefix_append _ _

/-! ## The `output` object -/

theorem get_set_same (output : Output) (name : String) (ast : Ast) :
    (output.set name ast).get name = ast := by
  induction output with
  | nil => simp [Output.set, Output.get]
  | cons kv rest ih =>
    obtain ⟨k, v⟩ := kv
    by_cases h : k = name
    · simp [Output.set, Output.get, h]
    · simp [Output.set, Output.get, h, ih]

theorem get_set_other (output : Output) {name other : String} (ast : Ast)
    (h : name ≠ other) : (output.set name ast).get other = output.get other := by
  induction output with
  | nil => simp [Output.set, Output.get, h]
  | cons kv rest ih =>
    obtain ⟨k, v⟩ := kv
    by_cases hk : k = name
    · subst hk
      simp [Output.set, Output.get, h]
    · by_cases hk2 : k = other
      · subst hk2
        simp [Output.set, Output.get, hk]
      · simp [Output.set, Output.get, hk, hk2, ih]

theorem keys_set_of_mem (output : Output) {name : String} (ast : Ast)
    (h : name ∈ output.keys) : (output.set name ast).keys = output.keys := by
  induction output with
  | nil => simp [Output.keys] at h
  | cons kv rest ih =>
    obtain ⟨k, v⟩ := kv
    by_cases hk : k = name
    · simp [Output.set, Output.keys, hk]
    · have h1 : name ∈ Output.keys rest := by
        simp only [Output.keys, List.map_cons, List.mem_cons] at h
        rcases h with h | h
        · exact absurd h.symm hk
        · exact h
      have := ih h1
      simp only [Output.keys] at this
      simp [Output.set, Output.keys, hk, this]

theorem keys_set_of_not_mem (output : Output) {name : String} (ast : Ast)
    (h : name ∉ output.keys) : (output.set name ast).keys = output.keys ++ [name] := by
  induction output with
  | nil => simp [Output.set, Output.keys]
  | cons kv rest ih =>
    obtain ⟨k, v⟩ := kv
    simp only [Output.keys, List.map_cons, List.mem_cons, not_or] at h
    have hk : ¬ k = name := fun e => h.1 e.symm
    have := ih h.2
    simp only [Output.keys] at this
    simp [Output.set, Output.keys, hk, this]

/-! ## The block "Build output object" -/

theorem build_output_get_frame (files : List (Ast × String)) : ∀ (output : Output)
    (name : String), name ∉ files.map (fun file => output_file file.2) →
    (build_output files output).get name = output.get name := by
  induction files with
  | nil => intro output name _; rfl
  | cons file rest ih =>
    intro output name h
    obtain ⟨ast, source_file⟩ := file
    simp only [List.map_cons, List.mem_cons, not_or] at h
    simp only [build_output]
    rw [ih _ _ h.2, get_set_other _ _ (fun e => h.1 e.symm)]

theorem build_output_get (files : List (Ast × String)) : ∀ (output : Output),
    (files.map (fun file => output_file file.2)).Nodup →
    ∀ file ∈ files, (build_output files output).get (output_file file.2) = file.1 := by
  induction files with
  | nil => intro output _ file h; simp at h
  | cons head rest ih =>
    intro output hnd file hfile
    obtain ⟨ast, source_file⟩ := head
    simp only [List.map_cons, List.nodup_cons] at hnd
    simp only [build_output]
    rcases List.mem_cons.mp hfile with h | h
    · subst h
      rw [build_output_get_frame _ _ _ hnd.1, get_set_same]
    · exact ih _ hnd.2 file h

theorem build_output_keys (files : List (Ast × String)) : ∀ (output : Output),
    (files.map (fun file => output_file file.2)).Nodup →
    (∀ name ∈ files.map (fun file => output_file file.2), name ∉ output.keys) →
    (build_output files output).keys =
      output.keys ++ files.map (fun file => output_file file.2) := by
  induction files with
  | nil => intro output _ _; simp [build_output]
  | cons head rest ih =>
    intro output hnd hnew
    obtain ⟨ast, source_file⟩ := head
    simp only [List.map_cons, List.nodup_cons] at hnd
    simp only [build_output]
    have h1 : output_file source_file ∉ output.keys := hnew _ (by simp)
    rw [ih _ hnd.2, keys_set_of_not_mem _ _ h1]
    · simp
    · intro name hname
      rw [keys_set_of_not_mem _ _ h1]
      simp only [List.mem_append, List.mem_singleton, not_or]
      refine ⟨hnew _ (by simp [List.mem_map] at hname ⊢; right; exact hname), ?_⟩
      intro e
      subst e
      exact hnd.1 hname

/-! ## Cycle resolution -/

theorem zip_map_self (scc : List String) (f : String → String) :
    scc.zip (scc.map f) = scc.map (fun name => (name, f name)) := by
  induction scc with
  | nil => rfl
  | cons name rest ih => simp [ih]

theorem write_shims_get (merged : String) (f : String → String) (scc : List String) :
    ∀ (output : Output) (name : String),
    (write_shims merged (scc.map (fun member => (member, f member))) output).get name =
      if name ∈ scc then newAst merged (f name) else output.get name := by
  induction scc with
  | nil => intro output name; simp [write_shims]
  | cons member rest ih =>
    intro output name
    simp only [List.map_cons, write_shims]
    rw [ih]
    by_cases h1 : name ∈ rest
    · simp [h1]
    · by_cases h2 : name = member
      · subst h2
        simp [h1, get_set_same]
      · have h3 : member ≠ name := fun e => h2 e.symm
        simp [h1, h2, get_set_other _ _ h3]

theorem write_shims_keys (merged : String) (pairs : List (String × String)) :
    ∀ (output : Output), (∀ pair ∈ pairs, pair.1 ∈ output.keys) →
    (write_shims merged pairs output).keys = output.keys := by
  induction pairs with
  | nil => intro output _; rfl
  | cons pair rest ih =>
    intro output h
    obtain ⟨name, moduleName⟩ := pair
    simp only [write_shims]
    have h1 : name ∈ output.keys := h (name, moduleName) (by simp)
    have h2 := keys_set_of_mem output (newAst merged moduleName) h1
    rw [ih, h2]
    intro pair hp
    rw [h2]
    exact h pair (List.mem_cons_of_mem _ hp)

theorem resolve_scc_trivial (env : Env R NT E) {scc : List String} (idx : Nat)
    (state : Output × R) (h : scc.length = 1) : resolve_scc env scc idx state = state := by
  simp [resolve_scc, h]

/-- What `output` holds after a component that is not of one member has been
processed. -/
theorem resolve_scc_get (env : Env R NT E) {scc : List String} (idx : Nat)
    (state : Output × R) (name : String) (h : scc.length ≠ 1) :
    (resolve_scc env scc idx state).1.get name =
      if name ∈ scc then newAst (mergedName idx) (replaceSuffix name ".js" "")
      else if name = mergedName idx ++ ".js" then
        env.merge_modules (scc.map (fun member => replaceSuffix member ".js" ""))
          (scc.map (fun member => state.1.get member))
      else state.1.get name := by
  simp only [resolve_scc, h, if_false]
  rw [zip_map_self, write_shims_get]
  by_cases h1 : name ∈ scc
  · simp [h1]
  · by_cases h2 : name = mergedName idx ++ ".js"
    · subst h2
      simp [h1, get_set_same]
    · have h3 : mergedName idx ++ ".js" ≠ name := fun e => h2 e.symm
      simp [h1, h2, get_set_other _ _ h3]

theorem resolve_scc_keys (env : Env R NT E) {scc : List String} (idx : Nat)
    (state : Output × R) (h : scc.length ≠ 1) (hmem : ∀ member ∈ scc, member ∈ state.1.keys)
    (hnew : mergedName idx ++ ".js" ∉ state.1.keys) :
    (resolve_scc env scc idx state).1.keys = state.1.keys ++ [mergedName idx ++ ".js"] := by
  simp only [resolve_scc, h, if_false]
  rw [write_shims_keys, keys_set_of_not_mem _ _ hnew]
  intro pair hp
  rw [keys_set_of_not_mem _ _ hnew]
  have h1 : pair.1 ∈ scc := (List.of_mem_zip hp).1
  exact List.mem_append_left _ (hmem _ h1)

theorem resolve_sccs_append (env : Env R NT E) (before : List (List String)) :
    ∀ (after : List (List String)) (idx : Nat) (state : Output × R),
    resolve_sccs env (before ++ after) idx state =
      resolve_sccs env after (idx + before.length) (resolve_sccs env before idx state) := by
  induction before with
  | nil => intro after idx state; simp [resolve_sccs]
  | cons scc rest ih =>
    intro after idx state
    have h := ih after (idx + 1) (resolve_scc env scc idx state)
    have e : idx + 1 + rest.length = idx + (rest.length + 1) := by omega
    rw [e] at h
    simpa [resolve_sccs] using h

/-- A key that no later component writes keeps its value. -/
theorem resolve_sccs_get_frame (env : Env R NT E) (sccs : List (List String)) :
    ∀ (idx : Nat) (state : Output × R) (name : String),
    (∀ j, idx ≤ j → name ≠ mergedName j ++ ".js") →
    (∀ scc ∈ sccs, scc.length ≠ 1 → name ∉ scc) →
    (resolve_sccs env sccs idx state).1.get name = state.1.get name := by
  induction sccs with
  | nil => intro idx state name _ _; rfl
  | cons scc rest ih =>
    intro idx state name hkey hmem
    simp only [resolve_sccs]
    rw [ih (idx + 1) _ name (fun j hj => hkey j (by omega))
      (fun c hc => hmem c (List.mem_cons_of_mem _ hc))]
    by_cases h : scc.length = 1
    · rw [resolve_scc_trivial env idx state h]
    · rw [resolve_scc_get env idx state name h]
      have h1 : name ∉ scc := hmem scc (List.mem_cons_self _ _) h
      have h2 : name ≠ mergedName idx ++ ".js" := hkey idx (Nat.le_refl _)
      simp [h1, h2]

/-- The keys of `output` after cycle resolution: the keys before, then one key
`merged_<idx>.js` per component that is not of one member. -/
theorem resolve_sccs_keys (env : Env R NT E) (sccs : List (List String)) :
    ∀ (idx : Nat) (state : Output × R),
    (∀ scc ∈ sccs, scc.length ≠ 1 → ∀ member ∈ scc, member ∈ state.1.keys) →
    (∀ j, idx ≤ j → mergedName j ++ ".js" ∉ state.1.keys) →
    (resolve_sccs env sccs idx state).1.keys = state.1.keys ++ merged_keys sccs idx := by
  induction sccs with
  | nil => intro idx state _ _; simp [resolve_sccs, merged_keys]
  | cons scc rest ih =>
    intro idx state hmem hnew
    simp only [resolve_sccs, merged_keys]
    by_cases h : scc.length = 1
    · rw [resolve_scc_trivial env idx state h]
      simp only [h, if_true]
      exact ih (idx + 1) state (fun c hc => hmem c (List.mem_cons_of_mem _ hc))
        (fun j hj => hnew j (by omega))
    · have hk := resolve_scc_keys env idx state h (hmem scc (List.mem_cons_self _ _) h)
        (hnew idx (Nat.le_refl _))
      simp only [h, if_false]
      rw [ih (idx + 1) (resolve_scc env scc idx state), hk]
      · simp
      · intro c hc hlen member hm
        rw [hk]
        exact List.mem_append_left _ (hmem c (List.mem_cons_of_mem _ hc) hlen member hm)
      · intro j hj
        rw [hk]
        simp only [List.mem_append, List.mem_singleton, not_or]
        refine ⟨hnew j (by omega), ?_⟩
        intro e
        have := mergedKey_injective e
        omega

theorem merged_keys_length (sccs : List (List String)) : ∀ (idx : Nat),
    (merged_keys sccs idx).length = (sccs.filter (fun scc => decide (scc.length ≠ 1))).length := by
  induction sccs with
  | nil => intro idx; rfl
  | cons scc rest ih =>
    intro idx
    by_cases h : scc.length = 1
    · simp [merged_keys, h, ih]
    · simp [merged_keys, h, ih]

theorem mem_merged_keys (sccs : List (List String)) : ∀ (idx : Nat) (name : String),
    name ∈ merged_keys sccs idx ↔
      ∃ j scc, sccs[j]? = some scc ∧ scc.length ≠ 1 ∧ name = mergedName (idx + j) ++ ".js" := by
  induction sccs with
  | nil => intro idx name; simp [merged_keys]
  | cons head rest ih =>
    intro idx name
    constructor
    · intro h
      by_cases hl : head.length = 1
      · simp only [merged_keys, hl, if_true] at h
        obtain ⟨j, scc, h1, h2, h3⟩ := (ih (idx + 1) name).mp h
        exact ⟨j + 1, scc, by simpa using h1, h2, by rw [h3]; congr 2; omega⟩
      · simp only [merged_keys, hl, if_false, List.mem_cons] at h
        rcases h with h | h
        · exact ⟨0, head, by simp, hl, by simpa using h⟩
        · obtain ⟨j, scc, h1, h2, h3⟩ := (ih (idx + 1) name).mp h
          exact ⟨j + 1, scc, by simpa using h1, h2, by rw [h3]; congr 2; omega⟩
    · rintro ⟨j, scc, h1, h2, h3⟩
      cases j with
      | zero =>
        simp only [List.getElem?_cons_zero, Option.some.injEq] at h1
        subst h1
        simp [merged_keys, h2, h3]
      | succ j =>
        simp only [List.getElem?_cons_succ] at h1
        have : name ∈ merged_keys rest (idx + 1) :=
          (ih (idx + 1) name).mpr ⟨j, scc, h1, h2, by rw [h3]; congr 2; omega⟩
        by_cases hl : head.length = 1
        · simp [merged_keys, hl, this]
        · simp [merged_keys, hl, this]

theorem merged_keys_nodup (sccs : List (List String)) : ∀ (idx : Nat),
    (merged_keys sccs idx).Nodup := by
  induction sccs with
  | nil => intro idx; simp [merged_keys]
  | cons head rest ih =>
    intro idx
    by_cases hl : head.length = 1
    · simp only [merged_keys, hl, if_true]
      exact ih _
    · simp only [merged_keys, hl, if_false, List.nodup_cons]
      refine ⟨?_, ih _⟩
      intro h
      obtain ⟨j, scc, _, _, h3⟩ := (mem_merged_keys rest (idx + 1) _).mp h
      have := mergedKey_injective h3
      omega

theorem split_at_position {α : Type} : ∀ {l : List α} {i : Nat} {a : α}, l[i]? = some a →
    ∃ before after, l = before ++ a :: after ∧ before.length = i := by
  intro l
  induction l with
  | nil => intro i a h; simp at h
  | cons head rest ih =>
    intro i a h
    cases i with
    | zero =>
      simp only [List.getElem?_cons_zero, Option.some.injEq] at h
      exact ⟨[], rest, by simp [h], rfl⟩
    | succ i =>
      simp only [List.getElem?_cons_succ] at h
      obtain ⟨before, after, h1, h2⟩ := ih h
      exact ⟨head :: before, after, by simp [h1], by simp [h2]⟩

/-- The shim of a member of a component that is not of one member survives to the end,
when no later component writes the member. -/
theorem resolve_sccs_get_member (env : Env R NT E) {sccs : List (List String)}
    {idx : Nat} {scc : List String} (state : Output × R) {member : String}
    (hscc : sccs[idx]? = some scc) (hlen : scc.length ≠ 1) (hmem : member ∈ scc)
    (hkey : ∀ j, member ≠ mergedName j ++ ".js")
    (hdisj : sccs.Pairwise List.Disjoint) :
    (resolve_sccs env sccs 0 state).1.get member =
      newAst (mergedName idx) (replaceSuffix member ".js" "") := by
  obtain ⟨before, after, hsplit, hbefore⟩ := split_at_position hscc
  subst hsplit
  rw [resolve_sccs_append]
  simp only [resolve_sccs, Nat.zero_add, hbefore]
  have hd := (List.pairwise_append.mp hdisj).2.1
  rw [resolve_sccs_get_frame env after (idx + 1) _ member (fun j _ => hkey j)
    (fun c hc _ hm => (List.rel_of_pairwise_cons hd hc) hmem hm)]
  rw [resolve_scc_get env idx _ member hlen]
  simp [hmem]

/-- The merged module of a component that is not of one member survives to the end and
is built from the entries `output` had before cycle resolution, when no component
writes a key of the form `merged_<k>.js` as a member. -/
theorem resolve_sccs_get_merged (env : Env R NT E) {sccs : List (List String)}
    {idx : Nat} {scc : List String} (state : Output × R)
    (hscc : sccs[idx]? = some scc) (hlen : scc.length ≠ 1)
    (hkey : ∀ c ∈ sccs, c.length ≠ 1 → ∀ member ∈ c, ∀ j, member ≠ mergedName j ++ ".js")
    (hdisj : sccs.Pairwise List.Disjoint) :
    (resolve_sccs env sccs 0 state).1.get (mergedName idx ++ ".js") =
      env.merge_modules (scc.map (fun member => replaceSuffix member ".js" ""))
        (scc.map (fun member => state.1.get member)) := by
  obtain ⟨before, after, hsplit, hbefore⟩ := split_at_position hscc
  subst hsplit
  rw [resolve_sccs_append]
  simp only [resolve_sccs, Nat.zero_add, hbefore]
  have hnot : ∀ c ∈ before ++ scc :: after, c.length ≠ 1 → mergedName idx ++ ".js" ∉ c :=
    fun c hc hl hm => hkey c hc hl _ hm idx rfl
  rw [resolve_sccs_get_frame env after (idx + 1) _ _
    (fun j hj e => by have := mergedKey_injective e; omega)
    (fun c hc hl => hnot c (by simp [hc]) hl)]
  rw [resolve_scc_get env idx _ _ hlen]
  have h1 : mergedName idx ++ ".js" ∉ scc := hnot scc (by simp) hlen
  simp only [h1, if_false, if_true]
  congr 1
  apply List.map_congr_left
  intro member hm
  have hd := (List.pairwise_append.mp hdisj).2.2
  exact resolve_sccs_get_frame env before 0 state member
    (fun j _ => hkey scc (by simp) hlen member hm j)
    (fun c hc _ hmc => hd c hc scc (by simp) hmc hm)

/-! ## The first half of `project` -/

theorem join_names_empty (name : String) : join_names "" name = name := by
  simp [join_names]

theorem read_sources_length (env : Env R NT E) (filenames : List String) : ∀ (reporter : R),
    (read_sources env filenames reporter).1.length = filenames.length := by
  induction filenames with
  | nil => intro reporter; rfl
  | cons filename rest ih => intro reporter; simp [read_sources, ih]

theorem parse_sources_length (env : Env R NT E) (sources : List (String × String)) :
    ∀ (reporter : R), (parse_sources env sources reporter).1.length = sources.length := by
  induction sources with
  | nil => intro reporter; rfl
  | cons source rest ih =>
    intro reporter
    obtain ⟨text, source_file⟩ := source
    simp [parse_sources, ih]

theorem rewrite_asts_length (env : Env R NT E) (name_table : NT) (asts : List (Ast × String)) :
    ∀ (reporter : R), (rewrite_asts env name_table asts reporter).1.length = asts.length := by
  induction asts with
  | nil => intro reporter; rfl
  | cons ast rest ih =>
    intro reporter
    obtain ⟨tree, source_file⟩ := ast
    simp [rewrite_asts, ih]

theorem parse_phase_length (env : Env R NT E) (tree : List FsNode) (root_path : String)
    (options : Options R) :
    (parse_phase env tree root_path options).1.length = (source_files tree options).length := by
  simp [parse_phase, parse_sources_length, read_sources_length]

/-- What a successful first half of `project` returns. -/
theorem rewrite_project_ok {env : Env R NT E} {tree : List FsNode} {root_path : String}
    {name_table : Option NT} {options : Options R} {rw : Rewritten R NT}
    (h : rewrite_project env tree root_path name_table (some options) = Except.ok rw) :
    env.hasError (parse_phase env tree root_path options).2 = false ∧
    rw.source_files = source_files tree options ∧
    rw.source_asts = (parse_phase env tree root_path options).1 ∧
    rw.name_table = (build_exports env (rw.source_asts.zip rw.source_files)
      (name_table.getD env.new_NameTable) (parse_phase env tree root_path options).2).1 ∧
    rw.rewritten_asts = (rewrite_asts env rw.name_table (rw.source_asts.zip rw.source_files)
      (build_exports env (rw.source_asts.zip rw.source_files)
        (name_table.getD env.new_NameTable) (parse_phase env tree root_path options).2).2).1 := by
  simp only [rewrite_project] at h
  split at h
  · cases h
  · split at h
    · cases h
    · rename_i h1 h2
      simp only [Except.ok.injEq] at h
      subst h
      simp only [Bool.not_eq_true] at h1
      exact ⟨h1, rfl, rfl, rfl, rfl⟩

theorem rewritten_lengths {env : Env R NT E} {tree : List FsNode} {root_path : String}
    {name_table : Option NT} {options : Options R} {rw : Rewritten R NT}
    (h : rewrite_project env tree root_path name_table (some options) = Except.ok rw) :
    rw.source_asts.length = rw.source_files.length ∧
    rw.rewritten_asts.length = rw.source_files.length := by
  obtain ⟨_, h2, h3, _, h5⟩ := rewrite_project_ok h
  have h6 : rw.source_asts.length = rw.source_files.length := by
    rw [h3, h2, parse_phase_length]
  refine ⟨h6, ?_⟩
  rw [h5, rewrite_asts_length, List.length_zip, h6, Nat.min_self]

theorem project_of_rewritten {env : Env R NT E} {tree : List FsNode} {root_path : String}
    {name_table : Option NT} {options : Option (Options R)} {rw : Rewritten R NT}
    (h : rewrite_project env tree root_path name_table options = Except.ok rw) :
    project env tree root_path name_table options = Except.ok (link_project env rw) := by
  simp [project, h]

theorem link_project_eq (env : Env R NT E) (rw : Rewritten R NT) :
    link_project env rw = (resolve_sccs env (project_sccs env rw) 0
      (initial_output rw,
        env.step rw.reporter "dependency graph" "building dependency graph" none)).1 := rfl

/-! ## The files `get_files` lists -/

theorem string_ne_empty_iff (s : String) : s ≠ "" ↔ s.data ≠ [] := by
  constructor
  · intro h e
    exact h (string_ext_data e)
  · intro h e
    subst e
    exact h rfl

theorem join_names_right_empty (a : String) : join_names a "" = a := by
  by_cases h : a = ""
  · simp [join_names, h]
  · simp [join_names, h]

theorem join_names_data {a b : String} (ha : a ≠ "") (hb : b ≠ "") :
    (join_names a b).data = a.data ++ '/' :: b.data := by
  simp [join_names, ha, hb]

theorem rel_path_cons (name : String) (names : List String) :
    rel_path (name :: names) = join_names name (rel_path names) := by
  cases names with
  | nil => simp [rel_path, join_names_right_empty]
  | cons head rest => rfl

theorem startsWithDot_append {a : String} (b : String) (ha : a ≠ "") :
    startsWithDot (a ++ b) = startsWithDot a := by
  have h := (string_ne_empty_iff a).mp ha
  unfold startsWithDot
  rw [String.data_append]
  cases hd : a.data with
  | nil => exact absurd hd h
  | cons c rest => rfl

theorem startsWithDot_join_names {a b : String} (ha : a ≠ "") :
    startsWithDot (join_names a b) = startsWithDot a := by
  by_cases hb : b = ""
  · simp [join_names, ha, hb]
  · simp only [join_names, ha, hb, if_false]
    rw [String.append_assoc, startsWithDot_append _ ha]

theorem startsWithDot_rel_path (names : List String) :
    startsWithDot (rel_path names) = true → names.any startsWithDot = true := by
  induction names with
  | nil => intro h; simp [rel_path, startsWithDot] at h
  | cons name rest ih =>
    intro h
    rw [rel_path_cons] at h
    by_cases hn : name = ""
    · subst hn
      rw [join_names_empty] at h
      simp [ih h]
    · rw [startsWithDot_join_names hn] at h
      simp [h]

theorem suffix_join_names {a b : String} (suffix : String) (hb : b ≠ "")
    (h : suffix.data <:+ b.data) : suffix.data <:+ (join_names a b).data := by
  by_cases ha : a = ""
  · subst ha
    rw [join_names_empty]
    exact h
  · rw [join_names_data ha hb]
    exact List.IsSuffix.trans h ⟨a.data ++ ['/'], by simp⟩

theorem filter_func_file (options : Options R) (name : String) :
    filter_func options name = is_source options [name] := by
  cases h1 : endsWith name ".as" <;> cases h2 : startsWithDot name <;>
    cases h3 : options.ignore_dot_files <;>
    simp [filter_func, is_source, h1, h2, h3]

mutual
theorem files_below_ne_nil : ∀ (n : FsNode) (names : List String),
    names ∈ n.files_below → names ≠ []
  | .file name, names, h => by
    simp only [FsNode.files_below, List.mem_singleton] at h
    simp [h]
  | .dir name children, names, h => by
    simp only [FsNode.files_below, List.mem_map] at h
    obtain ⟨tail, _, rfl⟩ := h
    simp
theorem files_under_ne_nil : ∀ (l : List FsNode) (names : List String),
    names ∈ files_under l → names ≠ []
  | [], names, h => by simp [files_under] at h
  | child :: rest, names, h => by
    simp only [files_under, List.mem_append] at h
    rcases h with h | h
    · exact files_below_ne_nil child names h
    · exact files_under_ne_nil rest names h
end

theorem is_source_cons (options : Options R) (name : String) {names : List String}
    (h : names ≠ []) :
    is_source options (name :: names) =
      (is_source options names && !(options.ignore_dot_files && startsWithDot name)) := by
  cases names with
  | nil => exact absurd rfl h
  | cons head rest =>
    cases h1 : endsWith (rest.getLastD head) ".as" <;> cases h2 : startsWithDot name <;>
      cases h3 : options.ignore_dot_files <;>
      simp [is_source, List.getLastD, h1, h2, h3]

theorem is_source_suffix (options : Options R) (names : List String) :
    is_source options names = true →
    ".as".data <:+ (rel_path names).data ∧ rel_path names ≠ "" := by
  have hne : ∀ s : String, ".as".data <:+ s.data → s ≠ "" := by
    intro s hs e
    subst e
    have := List.IsSuffix.length_le hs
    simp at this
  induction names with
  | nil => intro h; simp [is_source, endsWith] at h
  | cons name rest ih =>
    intro h
    by_cases hr : rest = []
    · subst hr
      have h1 : endsWith name ".as" = true := by
        simp only [is_source, List.getLastD, Bool.and_eq_true] at h
        exact h.1
      have h2 := (endsWith_iff _ _).mp h1
      exact ⟨h2, hne _ h2⟩
    · rw [is_source_cons options name hr, Bool.and_eq_true] at h
      obtain ⟨h1, h2⟩ := ih h.1
      rw [rel_path_cons]
      have h3 := suffix_join_names (a := name) ".as" h2 h1
      exact ⟨h3, hne _ h3⟩

theorem filter_func_join_names (options : Options R) (name : String) {names : List String}
    (h : is_source options names = true) :
    filter_func options (join_names name (rel_path names)) =
      !(options.ignore_dot_files && startsWithDot name) := by
  obtain ⟨h1, h2⟩ := is_source_suffix options names h
  have h3 : endsWith (join_names name (rel_path names)) ".as" = true :=
    (endsWith_iff _ _).mpr (suffix_join_names ".as" h2 h1)
  by_cases hn : name = ""
  · subst hn
    rw [join_names_empty] at h3 ⊢
    cases h4 : options.ignore_dot_files
    · simp [filter_func, h3, h4]
    · have h5 : startsWithDot (rel_path names) = false := by
        cases h6 : startsWithDot (rel_path names)
        · rfl
        · have := startsWithDot_rel_path names h6
          simp [is_source, h4, this] at h
      have h6 : startsWithDot "" = false := rfl
      simp [filter_func, h3, h4, h5, h6]
  · have h4 := startsWithDot_join_names (b := rel_path names) hn
    cases h5 : options.ignore_dot_files <;> cases h6 : startsWithDot name <;>
      simp [filter_func, h3, h4, h5, h6]

theorem filter_dir_files (options : Options R) (name : String) (files : List (List String))
    (hne : ∀ names ∈ files, names ≠ []) :
    ((((files.filter (is_source options)).map rel_path).map
      (fun path => join_names name path)).filter (filter_func options)) =
    ((files.map (fun names => name :: names)).filter (is_source options)).map rel_path := by
  induction files with
  | nil => rfl
  | cons head rest ih =>
    have ih1 := ih (fun names hn => hne names (List.mem_cons_of_mem _ hn))
    have hh : head ≠ [] := hne head (List.mem_cons_self _ _)
    simp only [List.map_cons]
    rw [List.filter_cons, List.filter_cons, is_source_cons options name hh]
    cases h1 : is_source options head
    · simpa using ih1
    · simp only [if_true, List.map_cons, Bool.true_and]
      rw [List.filter_cons, filter_func_join_names options name h1]
      cases h2 : (!(options.ignore_dot_files && startsWithDot name))
      · simpa using ih1
      · simp only [if_true, List.map_cons, rel_path_cons]
        rw [ih1]

theorem contains_eq_false_iff {α : Type} [DecidableEq α] (l : List α) (a : α) :
    l.contains a = false ↔ a ∉ l := by
  simp [List.contains]

theorem valid_name_spec {name : String} (h : valid_name name = true) :
    name ≠ "" ∧ '/' ∉ name.data := by
  simp only [valid_name, Bool.and_eq_true, decide_eq_true_eq, Bool.not_eq_true',
    contains_eq_false_iff] at h
  exact ⟨(string_ne_empty_iff name).mpr h.1.1.1, h.1.1.2⟩

theorem slash_split : ∀ {a b x y : List Char}, '/' ∉ a → '/' ∉ b →
    a ++ '/' :: x = b ++ '/' :: y → a = b ∧ x = y := by
  intro a
  induction a with
  | nil =>
    intro b x y _ hb h
    cases b with
    | nil => simpa using h
    | cons d rest =>
      simp only [List.nil_append, List.cons_append, List.cons.injEq] at h
      exact absurd (h.1 ▸ List.mem_cons_self _ _) hb
  | cons c rest ih =>
    intro b x y ha hb h
    cases b with
    | nil =>
      simp only [List.nil_append, List.cons_append, List.cons.injEq] at h
      exact absurd (h.1 ▸ List.mem_cons_self _ _) ha
    | cons d rest2 =>
      simp only [List.cons_append, List.cons.injEq] at h
      obtain ⟨h1, h2⟩ := ih (fun m => ha (List.mem_cons_of_mem _ m))
        (fun m => hb (List.mem_cons_of_mem _ m)) h.2
      exact ⟨by rw [h.1, h1], h2⟩

theorem rel_path_ne_empty : ∀ (names : List String), names ≠ [] →
    (∀ name ∈ names, valid_name name = true) → rel_path names ≠ "" := by
  intro names hne hv
  cases names with
  | nil => exact absurd rfl hne
  | cons head rest =>
    have h1 := (valid_name_spec (hv head (List.mem_cons_self _ _))).1
    rw [rel_path_cons]
    by_cases hr : rel_path rest = ""
    · rw [hr, join_names_right_empty]
      exact h1
    · rw [string_ne_empty_iff, join_names_data h1 hr]
      simp

theorem rel_path_data (name : String) {names : List String} (hne : names ≠ [])
    (hn : valid_name name = true) (hv : ∀ x ∈ names, valid_name x = true) :
    (rel_path (name :: names)).data = name.data ++ '/' :: (rel_path names).data := by
  rw [rel_path_cons, join_names_data (valid_name_spec hn).1 (rel_path_ne_empty names hne hv)]

theorem not_slash_inside {name : String} {rest x : List Char} (hn : '/' ∉ name.data)
    (h : name.data = rest ++ '/' :: x) : False := by
  apply hn
  rw [h]
  simp

/-- Lists of valid names that spell the same relative path are the same list. -/
theorem rel_path_injective : ∀ (a b : List String), a ≠ [] → b ≠ [] →
    (∀ name ∈ a, valid_name name = true) → (∀ name ∈ b, valid_name name = true) →
    rel_path a = rel_path b → a = b := by
  intro a
  induction a with
  | nil => intro b ha; exact absurd rfl ha
  | cons x a1 ih =>
    intro b _ hb hva hvb h
    cases b with
    | nil => exact absurd rfl hb
    | cons y b1 =>
      have hx := hva x (List.mem_cons_self _ _)
      have hy := hvb y (List.mem_cons_self _ _)
      have hva1 : ∀ name ∈ a1, valid_name name = true :=
        fun name hn => hva name (List.mem_cons_of_mem _ hn)
      have hvb1 : ∀ name ∈ b1, valid_name name = true :=
        fun name hn => hvb name (List.mem_cons_of_mem _ hn)
      have hd := congrArg String.data h
      by_cases ha1 : a1 = []
      · subst ha1
        by_cases hb1 : b1 = []
        · subst hb1
          simp only [rel_path] at h
          rw [h]
        · rw [rel_path_data y hb1 hy hvb1] at hd
          simp only [rel_path] at hd
          exact absurd hd (fun e => not_slash_inside (valid_name_spec hx).2 e)
      · by_cases hb1 : b1 = []
        · subst hb1
          rw [rel_path_data x ha1 hx hva1] at hd
          simp only [rel_path] at hd
          exact absurd hd.symm (fun e => not_slash_inside (valid_name_spec hy).2 e)
        · rw [rel_path_data x ha1 hx hva1, rel_path_data y hb1 hy hvb1] at hd
          obtain ⟨h1, h2⟩ := slash_split (valid_name_spec hx).2 (valid_name_spec hy).2 hd
          have h3 := ih b1 ha1 hb1 hva1 hvb1 (string_ext_data h2)
          rw [string_ext_data h1, h3]

mutual
theorem files_below_valid : ∀ (n : FsNode), n.wf = true → ∀ names ∈ n.files_below,
    ∀ name ∈ names, valid_name name = true
  | .file name, h, names, hn, x, hx => by
    simp only [FsNode.files_below, List.mem_singleton] at hn
    subst hn
    simp only [List.mem_singleton] at hx
    subst hx
    simpa [FsNode.wf] using h
  | .dir name children, h, names, hn, x, hx => by
    simp only [FsNode.wf, Bool.and_eq_true] at h
    simp only [FsNode.files_below, List.mem_map] at hn
    obtain ⟨tail, ht, rfl⟩ := hn
    rcases List.mem_cons.mp hx with hx | hx
    · rw [hx]; exact h.1
    · exact files_under_valid children h.2 tail ht x hx
theorem files_under_valid : ∀ (l : List FsNode), wf_children l = true →
    ∀ names ∈ files_under l, ∀ name ∈ names, valid_name name = true
  | [], _, names, hn, _, _ => by simp [files_under] at hn
  | child :: rest, h, names, hn, x, hx => by
    simp only [wf_children, Bool.and_eq_true] at h
    simp only [files_under, List.mem_append] at hn
    rcases hn with hn | hn
    · exact files_below_valid child h.1.1 names hn x hx
    · exact files_under_valid rest h.2 names hn x hx
end

theorem files_below_head (n : FsNode) : ∀ names ∈ n.files_below, names.head? = some n.name := by
  intro names hn
  cases n with
  | file name =>
    simp only [FsNode.files_below, List.mem_singleton] at hn
    simp [hn, FsNode.name]
  | dir name children =>
    simp only [FsNode.files_below, List.mem_map] at hn
    obtain ⟨tail, _, rfl⟩ := hn
    simp [FsNode.name]

theorem files_under_head (l : List FsNode) : ∀ names ∈ files_under l,
    ∃ n ∈ l, names.head? = some n.name := by
  induction l with
  | nil => intro names hn; simp [files_under] at hn
  | cons child rest ih =>
    intro names hn
    simp only [files_under, List.mem_append] at hn
    rcases hn with hn | hn
    · exact ⟨child, List.mem_cons_self _ _, files_below_head child names hn⟩
    · obtain ⟨n, h1, h2⟩ := ih names hn
      exact ⟨n, List.mem_cons_of_mem _ h1, h2⟩

mutual
theorem files_below_nodup : ∀ (n : FsNode), n.wf = true → n.files_below.Nodup
  | .file name, _ => by simp [FsNode.files_below]
  | .dir name children, h => by
    simp only [FsNode.wf, Bool.and_eq_true] at h
    simp only [FsNode.files_below]
    exact (files_under_nodup children h.2).map (fun a b e => by simpa using e)
theorem files_under_nodup : ∀ (l : List FsNode), wf_children l = true → (files_under l).Nodup
  | [], _ => by simp [files_under]
  | child :: rest, h => by
    simp only [wf_children, Bool.and_eq_true, Bool.not_eq_true', contains_eq_false_iff] at h
    simp only [files_under]
    refine List.Nodup.append (files_below_nodup child h.1.1) (files_under_nodup rest h.2) ?_
    intro names h1 h2
    have e1 := files_below_head child names h1
    obtain ⟨n, hn, e2⟩ := files_under_head rest names h2
    rw [e1] at e2
    simp only [Option.some.injEq] at e2
    exact h.1.2 (List.mem_map.mpr ⟨n, hn, e2.symm⟩)
end

/-! ## `path.join` on the names `get_files` joins -/

theorem split_path_of_no_slash (p : List Char) (h : '/' ∉ p) : split_path p = [p] := by
  induction p with
  | nil => rfl
  | cons c cs ih =>
    have hc : c ≠ '/' := fun e => h (e ▸ List.mem_cons_self _ _)
    have hcs : '/' ∉ cs := fun m => h (List.mem_cons_of_mem _ m)
    simp [split_path, hc, ih hcs]

theorem split_path_append_slash (p rest : List Char) (h : '/' ∉ p) :
    split_path (p ++ '/' :: rest) = p :: split_path rest := by
  induction p with
  | nil => simp [split_path]
  | cons c cs ih =>
    have hc : c ≠ '/' := fun e => h (e ▸ List.mem_cons_self _ _)
    have hcs : '/' ∉ cs := fun m => h (List.mem_cons_of_mem _ m)
    simp [split_path, hc, ih hcs]

theorem join_parts_cons_cons (p q : List Char) (rest : List (List Char)) :
    join_parts (p :: q :: rest) = p ++ '/' :: join_parts (q :: rest) := rfl

theorem join_parts_concat (xs : List (List Char)) (p : List Char) :
    join_parts (xs ++ [p]) = (if xs = [] then [] else join_parts xs ++ ['/']) ++ p := by
  induction xs with
  | nil => simp [join_parts]
  | cons x rest ih =>
    cases rest with
    | nil => simp [join_parts]
    | cons y more =>
      simp only [List.cons_append, join_parts_cons_cons] at ih ⊢
      rw [ih]
      simp

theorem split_path_join_parts (parts : List (List Char)) (hne : parts ≠ [])
    (h : ∀ p ∈ parts, '/' ∉ p) : split_path (join_parts parts) = parts := by
  induction parts with
  | nil => exact absurd rfl hne
  | cons p rest ih =>
    cases rest with
    | nil => exact split_path_of_no_slash p (h p (by simp))
    | cons q more =>
      rw [join_parts_cons_cons, split_path_append_slash _ _ (h p (by simp)),
        ih (by simp) (fun x hx => h x (List.mem_cons_of_mem _ hx))]

theorem push_part_ordinary (allowAboveRoot : Bool) (stack : List (List Char))
    {part : List Char} (h1 : part ≠ []) (h2 : part ≠ ['.']) (h3 : part ≠ ['.', '.']) :
    push_part allowAboveRoot stack part = part :: stack := by
  simp [push_part, h1, h2, h3]

theorem foldl_push_part_ordinary (allowAboveRoot : Bool) (parts : List (List Char))
    (h : ∀ p ∈ parts, p ≠ [] ∧ p ≠ ['.'] ∧ p ≠ ['.', '.']) : ∀ (stack : List (List Char)),
    parts.foldl (push_part allowAboveRoot) stack = parts.reverse ++ stack := by
  induction parts with
  | nil => intro stack; rfl
  | cons p rest ih =>
    intro stack
    obtain ⟨h1, h2, h3⟩ := h p (by simp)
    simp only [List.foldl_cons, push_part_ordinary allowAboveRoot stack h1 h2 h3]
    rw [ih (fun x hx => h x (List.mem_cons_of_mem _ hx))]
    simp

theorem valid_name_ordinary {name : String} (h : valid_name name = true) :
    name.data ≠ [] ∧ name.data ≠ ['.'] ∧ name.data ≠ ['.', '.'] ∧ '/' ∉ name.data := by
  have h0 := valid_name_spec h
  simp only [valid_name, Bool.and_eq_true, decide_eq_true_eq, Bool.not_eq_true',
    contains_eq_false_iff] at h
  refine ⟨h.1.1.1, ?_, ?_, h0.2⟩
  · intro e
    exact h.1.2 (string_ext_data e)
  · intro e
    exact h.2 (string_ext_data e)

theorem rel_path_join_parts : ∀ (names : List String), names ≠ [] →
    (∀ name ∈ names, valid_name name = true) →
    (rel_path names).data = join_parts (names.map String.data) := by
  intro names
  induction names with
  | nil => intro h; exact absurd rfl h
  | cons name rest ih =>
    intro _ hv
    cases rest with
    | nil => rfl
    | cons q more =>
      have hv1 : ∀ x ∈ q :: more, valid_name x = true :=
        fun x hx => hv x (List.mem_cons_of_mem _ hx)
      rw [rel_path_data name (by simp) (hv name (by simp)) hv1, ih (by simp) hv1]
      rfl

/-- Normalisation leaves a path unchanged whose parts are ordinary names. -/
theorem normalize_join_parts {s : String} {parts : List (List Char)}
    (hs : s.data = join_parts parts) (hne : parts ≠ [])
    (hord : ∀ p ∈ parts, p ≠ [] ∧ p ≠ ['.'] ∧ p ≠ ['.', '.'] ∧ '/' ∉ p) :
    normalize s = s := by
  obtain ⟨init, last, rfl⟩ : ∃ init last, parts = init ++ [last] :=
    ⟨parts.dropLast, parts.getLast hne, (List.dropLast_append_getLast hne).symm⟩
  obtain ⟨hl1, _, _, hl4⟩ := hord last (by simp)
  have hdata : s.data ≠ [] := by
    rw [hs, join_parts_concat]
    simp [hl1]
  have hhead : s.data.head? ≠ some '/' := by
    intro e
    have hmem : '/' ∈ (init ++ [last]).head (by simp) := by
      rw [hs] at e
      cases init with
      | nil =>
        simp only [List.nil_append, join_parts] at e
        simp only [List.nil_append, List.head_cons]
        exact List.mem_of_mem_head? e
      | cons p rest =>
        have hp := (hord p (by simp)).1
        simp only [List.cons_append, List.head_cons]
        cases p with
        | nil => exact absurd rfl hp
        | cons c cs =>
          cases hrest : rest ++ [last] with
          | nil => simp at hrest
          | cons q more =>
            rw [List.cons_append, hrest, join_parts_cons_cons] at e
            simp only [List.cons_append, List.head?_cons, Option.some.injEq] at e
            rw [e]
            exact List.mem_cons_self _ _
    exact (hord _ (List.head_mem _)).2.2.2 hmem
  have hlast : s.data.getLast? ≠ some '/' := by
    intro e
    rw [hs, join_parts_concat, List.getLast?_append, List.getLast?_eq_getLast _ hl1] at e
    simp only [Option.or_some, Option.some.injEq] at e
    exact hl4 (e ▸ List.getLast_mem hl1)
  have hparts : ∀ allow, normalize_parts allow (split_path s.data) = init ++ [last] := by
    intro allow
    rw [hs, split_path_join_parts _ hne (fun p hp => (hord p hp).2.2.2)]
    simp only [normalize_parts]
    rw [foldl_push_part_ordinary _ _
      (fun p hp => ⟨(hord p hp).1, (hord p hp).2.1, (hord p hp).2.2.1⟩)]
    simp
  have habs : decide (s.data.head? = some '/') = false := by simpa using hhead
  have htrail : decide (s.data.getLast? = some '/') = false := by simpa using hlast
  have hbody : join_parts (init ++ [last]) ≠ [] := by
    rw [← hs]
    exact hdata
  apply string_ext_data
  unfold normalize
  simp only [hdata, if_false, habs, htrail, hparts, hbody]
  rw [← hs]
  simp

theorem normalize_rel_path (names : List String) (hne : names ≠ [])
    (hv : ∀ name ∈ names, valid_name name = true) :
    normalize (rel_path names) = rel_path names := by
  apply normalize_join_parts (rel_path_join_parts names hne hv) (by simpa using hne)
  intro p hp
  obtain ⟨name, hn, rfl⟩ := List.mem_map.mp hp
  exact valid_name_ordinary (hv name hn)

theorem path_join_rel_path (name : String) (names : List String)
    (hn : valid_name name = true) (hv : ∀ x ∈ names, valid_name x = true) :
    path_join name (rel_path names) = join_names name (rel_path names) := by
  unfold path_join
  rw [← rel_path_cons]
  apply normalize_rel_path _ (by simp)
  intro x hx
  rcases List.mem_cons.mp hx with h | h
  · rw [h]; exact hn
  · exact hv x h

theorem path_join_empty_rel_path (names : List String) (hne : names ≠ [])
    (hv : ∀ x ∈ names, valid_name x = true) :
    path_join "" (rel_path names) = rel_path names := by
  unfold path_join
  rw [join_names_empty]
  exact normalize_rel_path names hne hv

theorem split_path_append_no_slash (suffix : List Char) (h : '/' ∉ suffix) :
    ∀ (pre : List Char), ∃ init last, split_path pre = init ++ [last] ∧
      split_path (pre ++ suffix) = init ++ [last ++ suffix] := by
  intro pre
  induction pre with
  | nil => exact ⟨[], [], rfl, by simp [split_path_of_no_slash suffix h]⟩
  | cons c cs ih =>
    obtain ⟨init, last, h1, h2⟩ := ih
    by_cases hc : c = '/'
    · exact ⟨[] :: init, last, by simp [split_path, hc, h1], by simp [split_path, hc, h2]⟩
    · cases init with
      | nil =>
        exact ⟨[], c :: last, by simp [split_path, hc, h1], by simp [split_path, hc, h2]⟩
      | cons p rest =>
        exact ⟨(c :: p) :: rest, last, by simp [split_path, hc, h1],
          by simp [split_path, hc, h2]⟩

/-- Normalisation keeps the ending `.as` of a path. -/
theorem normalize_suffix (s : String) (h : ".as".data <:+ s.data) :
    ".as".data <:+ (normalize s).data := by
  have hd : ".as".data = ['.', 'a', 's'] := rfl
  rw [hd] at h ⊢
  obtain ⟨pre, hpre⟩ := h
  have hdata : s.data ≠ [] := by
    rw [← hpre]
    simp
  obtain ⟨init, last, _, h2⟩ := split_path_append_no_slash ['.', 'a', 's'] (by decide) pre
  have hlast : s.data.getLast? ≠ some '/' := by
    have e : s.data = (pre ++ ['.', 'a']) ++ ['s'] := by
      rw [← hpre]
      simp
    rw [e, List.getLast?_concat]
    decide
  have hlen : 3 ≤ (last ++ ['.', 'a', 's']).length := by simp
  have h1 : last ++ ['.', 'a', 's'] ≠ [] := by
    intro e
    rw [e] at hlen
    simp at hlen
  have h3 : last ++ ['.', 'a', 's'] ≠ ['.'] := by
    intro e
    rw [e] at hlen
    simp at hlen
  have h4 : last ++ ['.', 'a', 's'] ≠ ['.', '.'] := by
    intro e
    rw [e] at hlen
    simp at hlen
  have hparts : ∀ allow, normalize_parts allow (split_path s.data) =
      (List.foldl (push_part allow) [] init).reverse ++ [last ++ ['.', 'a', 's']] := by
    intro allow
    rw [← hpre, h2]
    simp only [normalize_parts, List.foldl_append, List.foldl_cons, List.foldl_nil]
    rw [push_part_ordinary allow _ h1 h3 h4]
    simp
  have htrail : decide (s.data.getLast? = some '/') = false := by simpa using hlast
  have hbody : ∀ front : List (List Char),
      join_parts (front ++ [last ++ ['.', 'a', 's']]) ≠ [] := by
    intro front
    rw [join_parts_concat]
    simp
  have hsuffix : ∀ (A B : List Char),
      ['.', 'a', 's'] <:+ A ++ (B ++ (last ++ ['.', 'a', 's'])) ++ [] :=
    fun A B => ⟨A ++ (B ++ last), by simp⟩
  unfold normalize
  simp only [hdata, if_false, htrail, hparts, hbody]
  rw [join_parts_concat]
  exact hsuffix _ _

theorem path_join_suffix (a : String) {b : String} (h : ".as".data <:+ b.data) :
    ".as".data <:+ (path_join a b).data := by
  have hb : b ≠ "" := by
    intro e
    subst e
    have := List.IsSuffix.length_le h
    simp at this
  exact normalize_suffix _ (suffix_join_names ".as" hb h)

mutual
theorem child_files_filter (options : Options R) : ∀ (n : FsNode), n.wf = true →
    (child_files (filter_func options) n).filter (filter_func options) =
      (n.files_below.filter (is_source options)).map rel_path
  | .file name, _ => by
    simp only [child_files, FsNode.files_below, List.filter_cons, List.filter_nil,
      filter_func_file]
    cases is_source options [name] <;> simp [rel_path]
  | .dir name children, h => by
    simp only [FsNode.wf, Bool.and_eq_true] at h
    simp only [child_files, FsNode.files_below]
    rw [forEach_children_filter options children h.2, List.map_map]
    have hmap : List.map ((fun path => path_join name path) ∘ rel_path)
        ((files_under children).filter (is_source options)) =
        List.map (fun path => join_names name path)
          (((files_under children).filter (is_source options)).map rel_path) := by
      rw [List.map_map]
      apply List.map_congr_left
      intro names hn
      have hmem := (List.mem_filter.mp hn).1
      exact path_join_rel_path name names h.1 (files_under_valid children h.2 names hmem)
    rw [hmap]
    exact filter_dir_files options name _ (files_under_ne_nil children)
theorem forEach_children_filter (options : Options R) : ∀ (l : List FsNode),
    wf_children l = true →
    (forEach_children (filter_func options) l).filter (filter_func options) =
      ((files_under l).filter (is_source options)).map rel_path
  | [], _ => by simp [forEach_children, files_under]
  | child :: rest, h => by
    simp only [wf_children, Bool.and_eq_true] at h
    simp only [forEach_children, files_under, List.filter_append, List.map_append]
    rw [child_files_filter options child h.1.1, forEach_children_filter options rest h.2]
end

/-- The array `source_files` is the list of the plain files under the root that pass
`is_source`, each spelled as its path relative to the root, in the order of the
traversal. -/
theorem source_files_eq (tree : List FsNode) (options : Options R)
    (hwf : wf_children tree = true) :
    source_files tree options = ((files_under tree).filter (is_source options)).map rel_path := by
  simp only [source_files, get_files]
  rw [forEach_children_filter options tree hwf, List.map_map]
  apply List.map_congr_left
  intro names hn
  have hmem := (List.mem_filter.mp hn).1
  exact path_join_empty_rel_path names (files_under_ne_nil tree names hmem)
    (files_under_valid tree hwf names hmem)

/-- Every source file ends in `.as`, whatever the names in the directory tree. -/
theorem source_files_suffix {tree : List FsNode} {options : Options R} {source_file : String}
    (h : source_file ∈ source_files tree options) : ".as".data <:+ source_file.data := by
  simp only [source_files, get_files, List.mem_map, List.mem_filter] at h
  obtain ⟨name, ⟨_, hf⟩, rfl⟩ := h
  apply path_join_suffix
  apply (endsWith_iff _ _).mp
  simp only [filter_func] at hf
  cases he : endsWith name ".as"
  · simp [he] at hf
  · rfl

/-- No file is listed twice in `source_files` when the directory tree is well formed. -/
theorem source_files_nodup (tree : List FsNode) (options : Options R)
    (hwf : wf_children tree = true) : (source_files tree options).Nodup := by
  rw [source_files_eq tree options hwf]
  apply List.Nodup.map_on
  · intro a ha b hb e
    have ha1 := (List.mem_filter.mp ha).1
    have hb1 := (List.mem_filter.mp hb).1
    exact rel_path_injective a b (files_under_ne_nil tree a ha1) (files_under_ne_nil tree b hb1)
      (files_under_valid tree hwf a ha1) (files_under_valid tree hwf b hb1) e
  · exact (files_under_nodup tree hwf).filter _

theorem output_files_nodup (tree : List FsNode) (options : Options R)
    (hwf : wf_children tree = true) :
    ((source_files tree options).map output_file).Nodup := by
  apply List.Nodup.map_on
  · intro a ha b hb e
    exact replaceSuffix_injOn ".js" (source_files_suffix ha) (source_files_suffix hb) e
  · exact source_files_nodup tree options hwf

/-! ## The `output` object before cycle resolution -/

theorem zip_output_files {asts : List Ast} {files : List String}
    (h : asts.length = files.length) :
    (asts.zip files).map (fun file => output_file file.2) = files.map output_file := by
  have h1 : (asts.zip files).map (fun file => output_file file.2) =
      ((asts.zip files).map Prod.snd).map output_file := by
    simp
  rw [h1, List.map_snd_zip _ _ (Nat.le_of_eq h.symm)]

theorem initial_output_keys {env : Env R NT E} {tree : List FsNode} {root_path : String}
    {name_table : Option NT} {options : Options R} {rw : Rewritten R NT}
    (h : rewrite_project env tree root_path name_table (some options) = Except.ok rw)
    (hwf : wf_children tree = true) :
    (initial_output rw).keys = rw.source_files.map output_file := by
  have hl := (rewritten_lengths h).2
  have hf := (rewrite_project_ok h).2.1
  have hnd : (rw.source_files.map output_file).Nodup := by
    rw [hf]
    exact output_files_nodup tree options hwf
  simp only [initial_output]
  rw [build_output_keys _ _ (by rw [zip_output_files hl]; exact hnd)
    (by intro name _; simp [Output.keys]), zip_output_files hl]
  simp [Output.keys]

theorem initial_output_get {env : Env R NT E} {tree : List FsNode} {root_path : String}
    {name_table : Option NT} {options : Options R} {rw : Rewritten R NT}
    (h : rewrite_project env tree root_path name_table (some options) = Except.ok rw)
    (hwf : wf_children tree = true) {j : Nat} {source_file : String} {ast : Ast}
    (hfile : rw.source_files[j]? = some source_file)
    (hast : rw.rewritten_asts[j]? = some ast) :
    (initial_output rw).get (output_file source_file) = ast := by
  have hl := (rewritten_lengths h).2
  have hf := (rewrite_project_ok h).2.1
  have hnd : (rw.source_files.map output_file).Nodup := by
    rw [hf]
    exact output_files_nodup tree options hwf
  have hmem : (ast, source_file) ∈ rw.rewritten_asts.zip rw.source_files :=
    List.getElem?_mem (List.getElem?_zip_eq_some.mpr ⟨hast, hfile⟩)
  exact build_output_get _ [] (by rw [zip_output_files hl]; exact hnd) _ hmem

theorem pairwise_disjoint_of {sccs : List (List String)}
    (h : sccs.Pairwise (fun a b => ∀ member ∈ a, member ∉ b)) :
    sccs.Pairwise List.Disjoint :=
  h.imp (fun hab _ ha hb => hab _ ha hb)

theorem not_merged_of_vertex {files : List String} {scc : List String} {member : String}
    (hpaths : ∀ source_file ∈ files, ¬ isMergedPath (output_file source_file))
    (hvert : 1 < scc.length → ∀ m ∈ scc, m ∈ files.map output_file)
    (hlen : scc.length ≠ 1) (hm : member ∈ scc) :
    ∀ j, member ≠ mergedName j ++ ".js" := by
  intro j e
  have h1 : 1 < scc.length := by
    have := List.length_pos_of_mem hm
    omega
  obtain ⟨source_file, h2, h3⟩ := List.mem_map.mp (hvert h1 member hm)
  exact hpaths source_file h2 ⟨j, by rw [h3, e]⟩

/-! ## The claims about cycle resolution -/

/-- C2: in a project whose output paths are none of the form `merged_<k>.js` and whose
components, as `scc.findFlat` returns them, are pairwise disjoint (the members of a
component of more than one member being output paths of the project), for every
component `scc` of more than one member at position `idx`, `project` returns an output
that maps `merged_<idx>.js` to `printer.merge_modules(moduleNames, asts)`, where
`moduleNames` is `scc` with every trailing `.js` removed and `asts[i]` is the AST
`printer.rewrite` returned for the source file whose output path is member `i`. -/
theorem merged_module_of_component (env : Env R NT E) (tree : List FsNode)
    (root_path : String) (name_table : Option NT) (options : Options R)
    (rw : Rewritten R NT)
    (hrw : rewrite_project env tree root_path name_table (some options) = Except.ok rw)
    (hwf : wf_children tree = true)
    (hpaths : ∀ source_file ∈ rw.source_files, ¬ isMergedPath (output_file source_file))
    (hdisj : (project_sccs env rw).Pairwise (fun a b => ∀ member ∈ a, member ∉ b))
    (hvert : ∀ scc ∈ project_sccs env rw, 1 < scc.length →
      ∀ member ∈ scc, member ∈ rw.source_files.map output_file)
    (idx : Nat) (scc : List String) (hscc : (project_sccs env rw)[idx]? = some scc)
    (hlen : 1 < scc.length) :
    ∃ output asts,
      project env tree root_path name_table (some options) = Except.ok output ∧
      output.get (mergedName idx ++ ".js") =
        env.merge_modules (scc.map (fun member => replaceSuffix member ".js" "")) asts ∧
      asts.length = scc.length ∧
      ∀ (i j : Nat) (member source_file : String) (ast : Ast), scc[i]? = some member →
        rw.source_files[j]? = some source_file → member = output_file source_file →
        rw.rewritten_asts[j]? = some ast → asts[i]? = some ast := by
  refine ⟨link_project env rw, scc.map (fun member => (initial_output rw).get member),
    project_of_rewritten hrw, ?_, by simp, ?_⟩
  · rw [link_project_eq]
    exact resolve_sccs_get_merged env _ hscc (by omega)
      (fun c hc hl member hm => not_merged_of_vertex hpaths (hvert c hc) hl hm)
      (pairwise_disjoint_of hdisj)
  · intro i j member source_file ast hi hj hm ha
    rw [List.getElem?_map, hi, hm]
    simp only [Option.map_some']
    rw [initial_output_get hrw hwf hj ha]

theorem not_isMergedPath_of_other_start {path : String}
    (h : ¬ "merged_".data <+: path.data) : ¬ isMergedPath path :=
  fun hm => h (isMergedPath_start hm)

/-- C2 at the project `cycle_tree`: the component of `a.js` and `b.js` is at position 0
and `merged_0.js` holds the merge of the two rewritten ASTs. -/
theorem merged_module_of_component_witness :
    (project_sccs cycle_env (demo_rewritten ["a.as", "b.as", "d.as"]))[0]? =
      some ["a.js", "b.js"] ∧
    ∃ output asts,
      project cycle_env cycle_tree "p" none (some demo_options) = Except.ok output ∧
      output.get (mergedName 0 ++ ".js") =
        cycle_env.merge_modules
          (["a.js", "b.js"].map (fun member => replaceSuffix member ".js" "")) asts ∧
      asts.length = ["a.js", "b.js"].length ∧
      ∀ (i j : Nat) (member source_file : String) (ast : Ast),
        ["a.js", "b.js"][i]? = some member →
        (demo_rewritten ["a.as", "b.as", "d.as"]).source_files[j]? = some source_file →
        member = output_file source_file →
        (demo_rewritten ["a.as", "b.as", "d.as"]).rewritten_asts[j]? = some ast →
        asts[i]? = some ast :=
  ⟨by decide,
    merged_module_of_component cycle_env cycle_tree "p" none demo_options
      (demo_rewritten ["a.as", "b.as", "d.as"]) rfl (by decide)
      (fun source_file h => not_isMergedPath_of_other_start (by revert source_file; decide))
      (by decide) (by decide) 0 ["a.js", "b.js"] (by decide) (by decide)⟩

/-- C3 as stated fails: in the project `shim_clash_tree` the component at position 0 has
the members `b.js` and `merged_1.js`, and the output maps `merged_1.js` not to the shim
into `merged_0` but to the merged module of the component at position 1. -/
theorem shim_of_member_counterexample :
    (project_sccs shim_clash_env
      (demo_rewritten ["b.as", "c.as", "d.as", "merged_1.as"]))[0]? =
      some ["b.js", "merged_1.js"] ∧
    ∃ output, project shim_clash_env shim_clash_tree "p" none (some demo_options) =
        Except.ok output ∧
      output.get "merged_1.js" ≠
        newAst (mergedName 0) (replaceSuffix "merged_1.js" ".js" "") ∧
      output.get "merged_1.js" =
        shim_clash_env.merge_modules ["c", "d"]
          [Ast.arr [.str "rewritten", .arr [.str "toplevel", .str "p/c.as"]],
            Ast.arr [.str "rewritten", .arr [.str "toplevel", .str "p/d.as"]]] :=
  ⟨by decide, _, rfl, by decide, by decide⟩

/-- C3, amended: in a project whose output paths are none of the form `merged_<k>.js`
and whose components are pairwise disjoint (the members of a component of more than one
member being output paths of the project), for every component of more than one member
at position `idx` and every member `i` of it, the output maps the member to the shim
`newAst`, the AST of `define(["merged_<idx>"], function (merged) { return
merged["<moduleNames[i]>"]; })`: its dependency array has the one element
`merged_<idx>` and the key it projects is `moduleNames[i]`. -/
theorem shim_of_member (env : Env R NT E) (tree : List FsNode)
    (root_path : String) (name_table : Option NT) (options : Options R)
    (rw : Rewritten R NT)
    (hrw : rewrite_project env tree root_path name_table (some options) = Except.ok rw)
    (hpaths : ∀ source_file ∈ rw.source_files, ¬ isMergedPath (output_file source_file))
    (hdisj : (project_sccs env rw).Pairwise (fun a b => ∀ member ∈ a, member ∉ b))
    (hvert : ∀ scc ∈ project_sccs env rw, 1 < scc.length →
      ∀ member ∈ scc, member ∈ rw.source_files.map output_file)
    (idx : Nat) (scc : List String) (hscc : (project_sccs env rw)[idx]? = some scc)
    (hlen : 1 < scc.length) :
    ∃ output,
      project env tree root_path name_table (some options) = Except.ok output ∧
      ∀ (i : Nat) (member : String), scc[i]? = some member →
        ∃ moduleName,
          (scc.map (fun name => replaceSuffix name ".js" ""))[i]? = some moduleName ∧
          output.get member = newAst (mergedName idx) moduleName ∧
          define_dependencies (output.get member) =
            some [Ast.arr [.str "string", .str (mergedName idx)]] := by
  refine ⟨link_project env rw, project_of_rewritten hrw, ?_⟩
  intro i member hi
  have hm : member ∈ scc := List.getElem?_mem hi
  have hget : (link_project env rw).get member =
      newAst (mergedName idx) (replaceSuffix member ".js" "") := by
    rw [link_project_eq]
    exact resolve_sccs_get_member env _ hscc (by omega) hm
      (not_merged_of_vertex hpaths (hvert scc (List.getElem?_mem hscc)) (by omega) hm)
      (pairwise_disjoint_of hdisj)
  refine ⟨replaceSuffix member ".js" "", by simp [List.getElem?_map, hi], hget, ?_⟩
  rw [hget]
  rfl

/-- C3, amended, at the project `cycle_tree`: `a.js` and `b.js` become shims into
`merged_0`. -/
theorem shim_of_member_witness :
    (project_sccs cycle_env (demo_rewritten ["a.as", "b.as", "d.as"]))[0]? =
      some ["a.js", "b.js"] ∧
    ∃ output,
      project cycle_env cycle_tree "p" none (some demo_options) = Except.ok output ∧
      ∀ (i : Nat) (member : String), ["a.js", "b.js"][i]? = some member →
        ∃ moduleName,
          (["a.js", "b.js"].map (fun name => replaceSuffix name ".js" ""))[i]? =
            some moduleName ∧
          output.get member = newAst (mergedName 0) moduleName ∧
          define_dependencies (output.get member) =
            some [Ast.arr [.str "string", .str (mergedName 0)]] :=
  ⟨by decide,
    shim_of_member cycle_env cycle_tree "p" none demo_options
      (demo_rewritten ["a.as", "b.as", "d.as"]) rfl
      (fun source_file h => not_isMergedPath_of_other_start (by revert source_file; decide))
      (by decide) (by decide) 0 ["a.js", "b.js"] (by decide) (by decide)⟩

/-- C4 as stated fails: in the project `trivial_clash_tree` the module `merged_0.js`
depends on nothing and is alone in its component, and the output maps it not to its
rewritten AST but to the merged module of the component of `a.js` and `b.js`. -/
theorem trivial_module_passes_through_counterexample :
    project_sccs cycle_env (demo_rewritten ["a.as", "b.as", "merged_0.as"]) =
      [["a.js", "b.js"], ["merged_0.js"]] ∧
    (build_flatDeps cycle_env
      (initial_output (demo_rewritten ["a.as", "b.as", "merged_0.as"]))).lookup
        "merged_0.js" = some [] ∧
    (demo_rewritten ["a.as", "b.as", "merged_0.as"]).rewritten_asts[2]? =
      some (Ast.arr [.str "rewritten", .arr [.str "toplevel", .str "p/merged_0.as"]]) ∧
    ∃ output, project cycle_env trivial_clash_tree "p" none (some demo_options) =
        Except.ok output ∧
      output.get (output_file "merged_0.as") ≠
        Ast.arr [.str "rewritten", .arr [.str "toplevel", .str "p/merged_0.as"]] :=
  ⟨by decide, by decide, by decide, _, rfl, by decide⟩

/-- C4, amended: for every project and every source file whose output path is not of
the form `merged_<k>.js` and lies in no component but components of exactly one member,
the output returned by `project` maps that output path to exactly the AST
`printer.rewrite` returned for the file; cycle resolution of other components does not
change that entry. -/
theorem trivial_module_passes_through (env : Env R NT E) (tree : List FsNode)
    (root_path : String) (name_table : Option NT) (options : Options R)
    (rw : Rewritten R NT)
    (hrw : rewrite_project env tree root_path name_table (some options) = Except.ok rw)
    (hwf : wf_children tree = true)
    (j : Nat) (source_file : String) (ast : Ast)
    (hfile : rw.source_files[j]? = some source_file)
    (hast : rw.rewritten_asts[j]? = some ast)
    (hpath : ¬ isMergedPath (output_file source_file))
    (htrivial : ∀ scc ∈ project_sccs env rw, output_file source_file ∈ scc → scc.length = 1) :
    ∃ output,
      project env tree root_path name_table (some options) = Except.ok output ∧
      output.get (output_file source_file) = ast := by
  refine ⟨link_project env rw, project_of_rewritten hrw, ?_⟩
  rw [link_project_eq, resolve_sccs_get_frame env _ 0 _ (output_file source_file)
    (fun k _ e => hpath ⟨k, e⟩) (fun scc hs hl hm => hl (htrivial scc hs hm))]
  exact initial_output_get hrw hwf hfile hast

/-- C4, amended, at the project `cycle_tree`: `d.js` keeps its rewritten AST. -/
theorem trivial_module_passes_through_witness :
    ∃ output,
      project cycle_env cycle_tree "p" none (some demo_options) = Except.ok output ∧
      output.get (output_file "d.as") =
        Ast.arr [.str "rewritten", .arr [.str "toplevel", .str "p/d.as"]] :=
  trivial_module_passes_through cycle_env cycle_tree "p" none demo_options
    (demo_rewritten ["a.as", "b.as", "d.as"]) rfl (by decide) 2 "d.as"
    (Ast.arr [.str "rewritten", .arr [.str "toplevel", .str "p/d.as"]]) (by decide) (by decide)
    (not_isMergedPath_of_other_start (by decide)) (by decide)

/-- C5 as stated fails: in the project `key_clash_tree` the two files form one component
that is merged, and the output has two keys, not the two source files plus one merged
component. -/
theorem output_keys_counterexample :
    (source_files key_clash_tree demo_options).length = 2 ∧
    project_sccs key_clash_env (demo_rewritten ["b.as", "merged_0.as"]) =
      [["b.js", "merged_0.js"]] ∧
    ∃ output, project key_clash_env key_clash_tree "p" none (some demo_options) =
        Except.ok output ∧
      output.keys = ["b.js", "merged_0.js"] ∧
      output.keys.length ≠ (source_files key_clash_tree demo_options).length +
        ((project_sccs key_clash_env (demo_rewritten ["b.as", "merged_0.as"])).filter
          (fun scc => decide (1 < scc.length))).length :=
  ⟨by decide, by decide, _, rfl, by decide, by decide⟩

/-- C5, amended: in a project whose output paths are none of the form `merged_<k>.js`
(the members of a component of more than one member being output paths of the project),
the keys of the output `project` returns are exactly the output paths of all source
files, in source-file order, followed by one key `merged_<idx>.js` for each position
`idx` of a component that is not of exactly one member; the keys are distinct, and
their number is the number of source files plus the number of those components. -/
theorem output_keys (env : Env R NT E) (tree : List FsNode)
    (root_path : String) (name_table : Option NT) (options : Options R)
    (rw : Rewritten R NT)
    (hrw : rewrite_project env tree root_path name_table (some options) = Except.ok rw)
    (hwf : wf_children tree = true)
    (hpaths : ∀ source_file ∈ rw.source_files, ¬ isMergedPath (output_file source_file))
    (hvert : ∀ scc ∈ project_sccs env rw, 1 < scc.length →
      ∀ member ∈ scc, member ∈ rw.source_files.map output_file) :
    ∃ output,
      project env tree root_path name_table (some options) = Except.ok output ∧
      output.keys = rw.source_files.map output_file ++ merged_keys (project_sccs env rw) 0 ∧
      (∀ name, name ∈ merged_keys (project_sccs env rw) 0 ↔
        ∃ idx scc, (project_sccs env rw)[idx]? = some scc ∧ scc.length ≠ 1 ∧
          name = mergedName idx ++ ".js") ∧
      output.keys.Nodup ∧
      output.keys.length = rw.source_files.length +
        ((project_sccs env rw).filter (fun scc => decide (scc.length ≠ 1))).length := by
  have hkeys0 := initial_output_keys hrw hwf
  have hkeys : (link_project env rw).keys =
      rw.source_files.map output_file ++ merged_keys (project_sccs env rw) 0 := by
    rw [link_project_eq, resolve_sccs_keys, hkeys0]
    · intro scc hs hl member hm
      rw [hkeys0]
      have h1 : 1 < scc.length := by
        have := List.length_pos_of_mem hm
        omega
      exact hvert scc hs h1 member hm
    · intro k _ hk
      rw [hkeys0] at hk
      obtain ⟨source_file, h2, h3⟩ := List.mem_map.mp hk
      exact hpaths source_file h2 ⟨k, h3⟩
  have hmem : ∀ name, name ∈ merged_keys (project_sccs env rw) 0 ↔
      ∃ idx scc, (project_sccs env rw)[idx]? = some scc ∧ scc.length ≠ 1 ∧
        name = mergedName idx ++ ".js" := by
    intro name
    rw [mem_merged_keys]
    simp
  refine ⟨link_project env rw, project_of_rewritten hrw, hkeys, hmem, ?_, ?_⟩
  · rw [hkeys]
    refine List.Nodup.append ?_ (merged_keys_nodup _ 0) ?_
    · rw [(rewrite_project_ok hrw).2.1]
      exact output_files_nodup tree options hwf
    · intro name h1 h2
      obtain ⟨source_file, h3, h4⟩ := List.mem_map.mp h1
      obtain ⟨idx, _, _, _, h5⟩ := (hmem name).mp h2
      exact hpaths source_file h3 ⟨idx, by rw [h4, h5]⟩
  · rw [hkeys, List.length_append, List.length_map, merged_keys_length]

/-- C5, amended, at the project `cycle_tree`: the keys are the three output paths and
`merged_0.js`. -/
theorem output_keys_witness :
    ∃ output,
      project cycle_env cycle_tree "p" none (some demo_options) = Except.ok output ∧
      output.keys = (demo_rewritten ["a.as", "b.as", "d.as"]).source_files.map output_file ++
        merged_keys (project_sccs cycle_env (demo_rewritten ["a.as", "b.as", "d.as"])) 0 ∧
      (∀ name, name ∈ merged_keys
          (project_sccs cycle_env (demo_rewritten ["a.as", "b.as", "d.as"])) 0 ↔
        ∃ idx scc, (project_sccs cycle_env (demo_rewritten ["a.as", "b.as", "d.as"]))[idx]? =
            some scc ∧ scc.length ≠ 1 ∧ name = mergedName idx ++ ".js") ∧
      output.keys.Nodup ∧
      output.keys.length = (demo_rewritten ["a.as", "b.as", "d.as"]).source_files.length +
        ((project_sccs cycle_env (demo_rewritten ["a.as", "b.as", "d.as"])).filter
          (fun scc => decide (scc.length ≠ 1))).length :=
  output_keys cycle_env cycle_tree "p" none demo_options
    (demo_rewritten ["a.as", "b.as", "d.as"]) rfl (by decide)
    (fun source_file h => not_isMergedPath_of_other_start (by revert source_file; decide))
    (by decide)

/-- C1 as stated fails: in the project `self_tree` the module `a.js` depends on itself
and is the one member of the component at position 0, and the output has no key
`merged_0.js` and maps `a.js` to its rewritten AST, not to a shim. -/
theorem self_loop_component_counterexample :
    (build_flatDeps self_env (initial_output (demo_rewritten ["a.as"]))).lookup "a.js" =
      some ["a.js"] ∧
    (project_sccs self_env (demo_rewritten ["a.as"]))[0]? = some ["a.js"] ∧
    ∃ output, project self_env self_tree "p" none (some demo_options) = Except.ok output ∧
      mergedName 0 ++ ".js" ∉ output.keys ∧
      output.get "a.js" ≠ newAst (mergedName 0) (replaceSuffix "a.js" ".js" "") ∧
      output = [("a.js", Ast.arr [.str "rewritten", .arr [.str "toplevel", .str "p/a.as"]])] :=
  ⟨by decide, by decide, _, rfl, by decide, by decide, by decide⟩

/-- C1, amended: in a project whose output paths are none of the form `merged_<k>.js`
(the members of a component of more than one member being output paths of the project),
when the dependency list of a module contains the module itself and `scc.findFlat`
reports that module as a component of exactly one member at position `i`, and the module
lies in no component of another size, `project` passes the module through as a trivial
component: the output has no key `merged_<i>.js` and maps the module to the AST
`printer.rewrite` returned for its source file. -/
theorem self_loop_component_is_trivial (env : Env R NT E) (tree : List FsNode)
    (root_path : String) (name_table : Option NT) (options : Options R)
    (rw : Rewritten R NT)
    (hrw : rewrite_project env tree root_path name_table (some options) = Except.ok rw)
    (hwf : wf_children tree = true)
    (hpaths : ∀ source_file ∈ rw.source_files, ¬ isMergedPath (output_file source_file))
    (hvert : ∀ scc ∈ project_sccs env rw, 1 < scc.length →
      ∀ member ∈ scc, member ∈ rw.source_files.map output_file)
    (idx : Nat) (module : String)
    (hself : ∃ deps, (module, deps) ∈ build_flatDeps env (initial_output rw) ∧ module ∈ deps)
    (hscc : (project_sccs env rw)[idx]? = some [module])
    (htrivial : ∀ scc ∈ project_sccs env rw, module ∈ scc → scc.length = 1) :
    ∃ output,
      project env tree root_path name_table (some options) = Except.ok output ∧
      mergedName idx ++ ".js" ∉ output.keys ∧
      ∃ (j : Nat) (source_file : String) (ast : Ast), rw.source_files[j]? = some source_file ∧
        module = output_file source_file ∧ rw.rewritten_asts[j]? = some ast ∧
        output.get module = ast := by
  have hkeys0 := initial_output_keys hrw hwf
  have hmodule : module ∈ rw.source_files.map output_file := by
    rw [← hkeys0]
    obtain ⟨deps, hdeps, _⟩ := hself
    simp only [build_flatDeps, List.mem_map] at hdeps
    obtain ⟨name, h1, h2⟩ := hdeps
    simp only [Prod.mk.injEq] at h2
    rw [← h2.1]
    exact h1
  obtain ⟨source_file, hsf, hmod⟩ := List.mem_map.mp hmodule
  obtain ⟨j, hj⟩ := List.mem_iff_getElem?.mp hsf
  have hjlt : j < rw.rewritten_asts.length := by
    rw [(rewritten_lengths hrw).2]
    exact (List.getElem?_eq_some.mp hj).1
  refine ⟨link_project env rw, project_of_rewritten hrw, ?_, j, source_file,
    rw.rewritten_asts[j], hj, hmod.symm, List.getElem?_eq_getElem hjlt, ?_⟩
  · have hkeys : (link_project env rw).keys =
        rw.source_files.map output_file ++ merged_keys (project_sccs env rw) 0 := by
      rw [link_project_eq, resolve_sccs_keys, hkeys0]
      · intro scc hs hl member hm
        rw [hkeys0]
        have h1 : 1 < scc.length := by
          have := List.length_pos_of_mem hm
          omega
        exact hvert scc hs h1 member hm
      · intro k _ hk
        rw [hkeys0] at hk
        obtain ⟨file, h2, h3⟩ := List.mem_map.mp hk
        exact hpaths file h2 ⟨k, h3⟩
    rw [hkeys]
    intro hmem
    rcases List.mem_append.mp hmem with h | h
    · obtain ⟨file, h2, h3⟩ := List.mem_map.mp h
      exact hpaths file h2 ⟨idx, h3⟩
    · obtain ⟨k, scc, h1, h2, h3⟩ := (mem_merged_keys _ 0 _).mp h
      have h4 := mergedKey_injective h3
      rw [Nat.zero_add] at h4
      rw [← h4, hscc] at h1
      simp only [Option.some.injEq] at h1
      rw [← h1] at h2
      simp at h2
  · rw [link_project_eq, resolve_sccs_get_frame env _ 0 _ module
      (fun k _ e => hpaths source_file hsf ⟨k, by rw [hmod, e]⟩)
      (fun scc hs hl hm => hl (htrivial scc hs hm)), ← hmod]
    exact initial_output_get hrw hwf hj (List.getElem?_eq_getElem hjlt)

/-- C1, amended, at the project `self_tree`: the module that depends on itself passes
through. -/
theorem self_loop_component_is_trivial_witness :
    ∃ output,
      project self_env self_tree "p" none (some demo_options) = Except.ok output ∧
      mergedName 0 ++ ".js" ∉ output.keys ∧
      ∃ (j : Nat) (source_file : String) (ast : Ast), (demo_rewritten ["a.as"]).source_files[j]? = some source_file ∧
        "a.js" = output_file source_file ∧
        (demo_rewritten ["a.as"]).rewritten_asts[j]? = some ast ∧
        output.get "a.js" = ast :=
  self_loop_component_is_trivial self_env self_tree "p" none demo_options
    (demo_rewritten ["a.as"]) rfl (by decide)
    (fun source_file h => not_isMergedPath_of_other_start (by revert source_file; decide))
    (by decide) 0 "a.js" ⟨["a.js"], by decide, by decide⟩ (by decide) (by decide)

/-! ## The claims about parsing, exports and rewriting -/

/-- C9: called with the root path alone, as `test/proj.js` calls it, `project` throws a
`TypeError` at `options.reporter` before it reads a file; it does not fall back to a
fresh name table and the null reporter. -/
theorem project_without_options_throws (env : Env R NT E) (tree : List FsNode)
    (root_path : String) :
    project env tree root_path none none = Except.error Thrown.TypeError :=
  rfl

theorem register_export_eq (env : Env R NT E) (source_file : String) (name_table : NT)
    (export_ : String × Option Symbol) :
    register_export env source_file name_table export_ =
      apply_call env name_table (export_call (replaceSuffix source_file ".as" "") export_) := by
  obtain ⟨packageName, name⟩ := export_
  cases name <;> rfl

theorem foldl_register_export (env : Env R NT E) (source_file : String)
    (exports : List (String × Option Symbol)) : ∀ (name_table : NT),
    exports.foldl (register_export env source_file) name_table =
      (exports.map (export_call (replaceSuffix source_file ".as" ""))).foldl (apply_call env)
        name_table := by
  induction exports with
  | nil => intro name_table; rfl
  | cons export_ rest ih =>
    intro name_table
    simp only [List.foldl_cons, List.map_cons]
    rw [ih, register_export_eq]

/-- The block "Build exports" applies the calls of `export_calls` in order. -/
theorem build_exports_eq (env : Env R NT E) (files : List (Ast × String)) :
    ∀ (name_table : NT) (reporter : R),
    (build_exports env files name_table reporter).1 =
      (export_calls env files).foldl (apply_call env) name_table := by
  induction files with
  | nil => intro name_table reporter; rfl
  | cons file rest ih =>
    intro name_table reporter
    obtain ⟨ast, source_file⟩ := file
    simp only [build_exports, export_calls, List.flatMap_cons, List.foldl_append]
    rw [ih, foldl_register_export]
    rfl

theorem mem_export_calls (env : Env R NT E) (files : List (Ast × String))
    (call : NameTableCall) :
    call ∈ export_calls env files ↔
      ∃ (j : Nat) (ast : Ast) (source_file : String) (export_ : String × Option Symbol),
        files[j]? = some (ast, source_file) ∧
        export_ ∈ env.get_exports ast ∧
        call = export_call (replaceSuffix source_file ".as" "") export_ := by
  simp only [export_calls, List.mem_flatMap, List.mem_map]
  constructor
  · rintro ⟨file, h1, export_, h2, h3⟩
    obtain ⟨j, hj⟩ := List.mem_iff_getElem?.mp h1
    exact ⟨j, file.1, file.2, export_, hj, h2, h3.symm⟩
  · rintro ⟨j, ast, source_file, export_, h1, h2, h3⟩
    exact ⟨(ast, source_file), List.getElem?_mem h1, export_, h2, h3.symm⟩

theorem rewrite_asts_get (env : Env R NT E) (name_table : NT) (files : List (Ast × String)) :
    ∀ (reporter : R) (j : Nat) (file : Ast × String), files[j]? = some file →
    ∃ reporter1, (rewrite_asts env name_table files reporter).1[j]? =
      some (env.rewrite file.1 name_table reporter1).1 := by
  induction files with
  | nil => intro reporter j file h; simp at h
  | cons head rest ih =>
    intro reporter j file h
    obtain ⟨ast, source_file⟩ := head
    cases j with
    | zero =>
      simp only [List.getElem?_cons_zero, Option.some.injEq] at h
      subst h
      exact ⟨env.step reporter "rewrite .as ast" ("rewriting " ++ source_file)
        (some [("filename", Ast.str source_file), ("ast", ast)]), by simp [rewrite_asts]⟩
    | succ j =>
      simp only [List.getElem?_cons_succ] at h
      obtain ⟨reporter1, h1⟩ := ih _ j file h
      exact ⟨reporter1, by simpa [rewrite_asts] using h1⟩

theorem parse_sources_get (env : Env R NT E) (sources : List (String × String)) :
    ∀ (reporter : R) (j : Nat) (source : String × String), sources[j]? = some source →
    ∃ reporter1, (parse_sources env sources reporter).1[j]? =
      some (parse_source env source.1 source.2 reporter1).1 := by
  induction sources with
  | nil => intro reporter j source h; simp at h
  | cons head rest ih =>
    intro reporter j source h
    obtain ⟨text, source_file⟩ := head
    cases j with
    | zero =>
      simp only [List.getElem?_cons_zero, Option.some.injEq] at h
      subst h
      exact ⟨reporter, by simp [parse_sources]⟩
    | succ j =>
      simp only [List.getElem?_cons_succ] at h
      obtain ⟨reporter1, h1⟩ := ih _ j source h
      exact ⟨reporter1, by simpa [parse_sources] using h1⟩

/-- C6 as stated fails: in the project of `export_env` the file `a.as` exports the symbol
`foo`; when `name_table.add` is called its `export_path` is `a`, while the module is
stored in the output and in the dependency graph under `a.js`. -/
theorem export_path_counterexample :
    rewrite_project export_env self_tree "p" none (some demo_options) =
      Except.ok export_rewritten ∧
    export_rewritten.name_table =
      [NameTableCall.add "pkg" { ident := "foo", export_path := some "a" },
        NameTableCall.create_package "lib"] ∧
    ∃ output, project export_env self_tree "p" none (some demo_options) = Except.ok output ∧
      output.keys = [output_file "a.as"] ∧
      (build_flatDeps export_env (initial_output export_rewritten)).map Prod.fst =
        [output_file "a.as"] ∧
      (some "a" : Option String) ≠ some (output_file "a.as") :=
  ⟨rfl, rfl, _, rfl, by decide, by decide, by decide⟩

/-- C6, amended: for every source file and every export `(packageName, symbol)` with a
non-null symbol that `printer.get_exports` returns for it, the symbol's `export_path`
at the moment `name_table.add(packageName, symbol)` is called is the source path with
its trailing `.as` removed, that is the output path of the file (the key of the output
mapping and the vertex of the dependency graph) with its trailing `.js` removed. -/
theorem export_path_of_symbol (env : Env R NT E) (tree : List FsNode)
    (root_path : String) (name_table : Option NT) (options : Options R)
    (rw : Rewritten R NT)
    (hrw : rewrite_project env tree root_path name_table (some options) = Except.ok rw) :
    rw.name_table = (export_calls env (rw.source_asts.zip rw.source_files)).foldl
      (apply_call env) (name_table.getD env.new_NameTable) ∧
    (∀ (j : Nat) (source_file : String) (ast : Ast) (packageName : String) (name : Symbol),
      rw.source_files[j]? = some source_file → rw.source_asts[j]? = some ast →
      (packageName, some name) ∈ env.get_exports ast →
      NameTableCall.add packageName
        { name with export_path := some (replaceSuffix (output_file source_file) ".js" "") } ∈
        export_calls env (rw.source_asts.zip rw.source_files)) ∧
    (∀ (packageName : String) (name : Symbol),
      NameTableCall.add packageName name ∈
        export_calls env (rw.source_asts.zip rw.source_files) →
      ∃ (j : Nat) (source_file : String), rw.source_files[j]? = some source_file ∧
        name.export_path = some (replaceSuffix source_file ".as" "") ∧
        name.export_path = some (replaceSuffix (output_file source_file) ".js" "")) := by
  obtain ⟨_, hfiles, _, htable, _⟩ := rewrite_project_ok hrw
  have hstrip : ∀ (j : Nat) (source_file : String), rw.source_files[j]? = some source_file →
      replaceSuffix (output_file source_file) ".js" "" = replaceSuffix source_file ".as" "" := by
    intro j source_file hj
    have hmem : source_file ∈ source_files tree options := by
      rw [← hfiles]
      exact List.getElem?_mem hj
    exact replaceSuffix_replaceSuffix ".js" "" (source_files_suffix hmem)
  refine ⟨?_, ?_, ?_⟩
  · rw [htable, build_exports_eq]
  · intro j source_file ast packageName name hj ha hexp
    rw [mem_export_calls]
    refine ⟨j, ast, source_file, (packageName, some name),
      List.getElem?_zip_eq_some.mpr ⟨ha, hj⟩, hexp, ?_⟩
    rw [hstrip j source_file hj]
    rfl
  · intro packageName name hcall
    obtain ⟨j, ast, source_file, export_, h1, _, h3⟩ := (mem_export_calls _ _ _).mp hcall
    have hj : rw.source_files[j]? = some source_file := (List.getElem?_zip_eq_some.mp h1).2
    obtain ⟨p, symbol⟩ := export_
    cases symbol with
    | none => simp [export_call] at h3
    | some symbol =>
      simp only [export_call, NameTableCall.add.injEq] at h3
      refine ⟨j, source_file, hj, ?_, ?_⟩
      · rw [h3.2]
      · rw [h3.2, hstrip j source_file hj]

/-- C6, amended, at the project of `export_env`: the call for `foo` carries the export
path `a`. -/
theorem export_path_of_symbol_witness :
    export_rewritten.name_table =
      (export_calls export_env
        (export_rewritten.source_asts.zip export_rewritten.source_files)).foldl
        (apply_call export_env) ((none : Option (List NameTableCall)).getD
          export_env.new_NameTable) ∧
    (∀ (j : Nat) (source_file : String) (ast : Ast) (packageName : String) (name : Symbol),
      export_rewritten.source_files[j]? = some source_file →
      export_rewritten.source_asts[j]? = some ast →
      (packageName, some name) ∈ export_env.get_exports ast →
      NameTableCall.add packageName
        { name with export_path := some (replaceSuffix (output_file source_file) ".js" "") } ∈
        export_calls export_env
          (export_rewritten.source_asts.zip export_rewritten.source_files)) ∧
    (∀ (packageName : String) (name : Symbol),
      NameTableCall.add packageName name ∈
        export_calls export_env
          (export_rewritten.source_asts.zip export_rewritten.source_files) →
      ∃ (j : Nat) (source_file : String),
        export_rewritten.source_files[j]? = some source_file ∧
        name.export_path = some (replaceSuffix source_file ".as" "") ∧
        name.export_path = some (replaceSuffix (output_file source_file) ".js" "")) :=
  export_path_of_symbol export_env self_tree "p" none demo_options export_rewritten rfl

/-- C7: `project` rewrites no file before the exports of every file are registered.
The name table handed to `printer.rewrite` for each file is the table obtained from the
initial one by applying, in source-file order, `name_table.add` or
`name_table.create_package` for every export of every file, so the call for an export
of file `j` is applied before file `i` is rewritten whether `j` comes before or after
`i`. -/
theorem rewrite_after_all_exports (env : Env R NT E) (tree : List FsNode)
    (root_path : String) (name_table : Option NT) (options : Options R)
    (rw : Rewritten R NT)
    (hrw : rewrite_project env tree root_path name_table (some options) = Except.ok rw) :
    rw.name_table = (export_calls env (rw.source_asts.zip rw.source_files)).foldl
      (apply_call env) (name_table.getD env.new_NameTable) ∧
    (∀ (i : Nat) (ast : Ast), rw.source_asts[i]? = some ast →
      ∃ reporter, rw.rewritten_asts[i]? =
        some (env.rewrite ast
          ((export_calls env (rw.source_asts.zip rw.source_files)).foldl
            (apply_call env) (name_table.getD env.new_NameTable)) reporter).1) ∧
    (∀ (j : Nat) (source_file : String) (ast : Ast) (export_ : String × Option Symbol),
      rw.source_files[j]? = some source_file → rw.source_asts[j]? = some ast →
      export_ ∈ env.get_exports ast →
      export_call (replaceSuffix source_file ".as" "") export_ ∈
        export_calls env (rw.source_asts.zip rw.source_files)) := by
  obtain ⟨_, _, _, htable, hrewritten⟩ := rewrite_project_ok hrw
  have htable2 : rw.name_table = (export_calls env (rw.source_asts.zip rw.source_files)).foldl
      (apply_call env) (name_table.getD env.new_NameTable) := by
    rw [htable, build_exports_eq]
  refine ⟨htable2, ?_, ?_⟩
  · intro i ast hi
    have hlen := (rewritten_lengths hrw).1
    have hilt : i < rw.source_files.length := by
      rw [← hlen]
      exact (List.getElem?_eq_some.mp hi).1
    have hzip : (rw.source_asts.zip rw.source_files)[i]? = some (ast, rw.source_files[i]) :=
      List.getElem?_zip_eq_some.mpr ⟨hi, List.getElem?_eq_getElem hilt⟩
    rw [← htable2, hrewritten]
    exact rewrite_asts_get env rw.name_table _ _ i _ hzip
  · intro j source_file ast export_ hj ha hexp
    rw [mem_export_calls]
    exact ⟨j, ast, source_file, export_, List.getElem?_zip_eq_some.mpr ⟨ha, hj⟩, hexp, rfl⟩

/-- C7 at the project `order_tree`: `y.as` is read before `x.as`, and the table with
which `y.as` is rewritten already holds the export `foo` of `x.as`. -/
theorem rewrite_after_all_exports_witness :
    order_rewritten.name_table =
      (export_calls order_env
        (order_rewritten.source_asts.zip order_rewritten.source_files)).foldl
        (apply_call order_env) ((none : Option (List NameTableCall)).getD
          order_env.new_NameTable) ∧
    (∀ (i : Nat) (ast : Ast), order_rewritten.source_asts[i]? = some ast →
      ∃ reporter, order_rewritten.rewritten_asts[i]? =
        some (order_env.rewrite ast
          ((export_calls order_env
            (order_rewritten.source_asts.zip order_rewritten.source_files)).foldl
            (apply_call order_env) ((none : Option (List NameTableCall)).getD
              order_env.new_NameTable)) reporter).1) ∧
    (∀ (j : Nat) (source_file : String) (ast : Ast) (export_ : String × Option Symbol),
      order_rewritten.source_files[j]? = some source_file →
      order_rewritten.source_asts[j]? = some ast →
      export_ ∈ order_env.get_exports ast →
      export_call (replaceSuffix source_file ".as" "") export_ ∈
        export_calls order_env
          (order_rewritten.source_asts.zip order_rewritten.source_files)) :=
  rewrite_after_all_exports order_env order_tree "p" none demo_options order_rewritten rfl

theorem parse_source_mono (env : Env R NT E)
    (herror : ∀ reporter name e, env.hasError (env.error reporter name e) = true)
    (hstep : ∀ reporter name message context, env.hasError reporter = true →
      env.hasError (env.step reporter name message context) = true)
    (hparse : ∀ source reporter, env.hasError reporter = true →
      env.hasError (env.parse source reporter).2 = true)
    (source source_file : String) (reporter : R) (h : env.hasError reporter = true) :
    env.hasError (parse_source env source source_file reporter).2 = true := by
  have h1 := hparse source _ (hstep reporter "parse .as file" ("parsing " ++ source_file)
    (some [("filename", Ast.str source_file), ("source", Ast.str source)]) h)
  simp only [parse_source]
  split
  · rename_i ast reporter2 heq
    rw [heq] at h1
    exact h1
  · exact herror _ _ _

theorem parse_source_throws (env : Env R NT E)
    (herror : ∀ reporter name e, env.hasError (env.error reporter name e) = true)
    (source source_file : String) (reporter : R)
    (h : ∀ reporter, ∃ e, (env.parse source reporter).1 = Except.error e) :
    env.hasError (parse_source env source source_file reporter).2 = true := by
  obtain ⟨e, he⟩ := h (env.step reporter "parse .as file" ("parsing " ++ source_file)
    (some [("filename", Ast.str source_file), ("source", Ast.str source)]))
  simp only [parse_source]
  split
  · rename_i ast reporter2 heq
    rw [heq] at he
    cases he
  · exact herror _ _ _

theorem parse_sources_mono (env : Env R NT E)
    (herror : ∀ reporter name e, env.hasError (env.error reporter name e) = true)
    (hstep : ∀ reporter name message context, env.hasError reporter = true →
      env.hasError (env.step reporter name message context) = true)
    (hparse : ∀ source reporter, env.hasError reporter = true →
      env.hasError (env.parse source reporter).2 = true)
    (sources : List (String × String)) : ∀ (reporter : R), env.hasError reporter = true →
    env.hasError (parse_sources env sources reporter).2 = true := by
  induction sources with
  | nil => intro reporter h; exact h
  | cons head rest ih =>
    intro reporter h
    obtain ⟨source, source_file⟩ := head
    simp only [parse_sources]
    exact ih _ (parse_source_mono env herror hstep hparse source source_file reporter h)

theorem parse_sources_throws (env : Env R NT E)
    (herror : ∀ reporter name e, env.hasError (env.error reporter name e) = true)
    (hstep : ∀ reporter name message context, env.hasError reporter = true →
      env.hasError (env.step reporter name message context) = true)
    (hparse : ∀ source reporter, env.hasError reporter = true →
      env.hasError (env.parse source reporter).2 = true)
    (sources : List (String × String)) : ∀ (reporter : R),
    (∃ pair ∈ sources, ∀ reporter, ∃ e, (env.parse pair.1 reporter).1 = Except.error e) →
    env.hasError (parse_sources env sources reporter).2 = true := by
  induction sources with
  | nil => intro reporter h; simp at h
  | cons head rest ih =>
    intro reporter h
    obtain ⟨source, source_file⟩ := head
    obtain ⟨pair, hp, hthrow⟩ := h
    simp only [parse_sources]
    rcases List.mem_cons.mp hp with hp | hp
    · subst hp
      exact parse_sources_mono env herror hstep hparse rest _
        (parse_source_throws env herror source source_file reporter hthrow)
    · exact ih _ ⟨pair, hp, hthrow⟩

theorem read_sources_congr (env env2 : Env R NT E)
    (h1 : env2.readFileSync = env.readFileSync) (h2 : env2.dirname = env.dirname)
    (h3 : env2.step = env.step) (filenames : List String) : ∀ (reporter : R),
    read_sources env2 filenames reporter = read_sources env filenames reporter := by
  induction filenames with
  | nil => intro reporter; rfl
  | cons filename rest ih =>
    intro reporter
    simp only [read_sources, getFakeFile, h1, h2, h3, ih]

theorem parse_sources_congr (env env2 : Env R NT E)
    (h1 : env2.parse = env.parse) (h2 : env2.error = env.error)
    (h3 : env2.step = env.step) (sources : List (String × String)) : ∀ (reporter : R),
    parse_sources env2 sources reporter = parse_sources env sources reporter := by
  induction sources with
  | nil => intro reporter; rfl
  | cons head rest ih =>
    intro reporter
    obtain ⟨source, source_file⟩ := head
    simp only [parse_sources, parse_source, h1, h2, h3, ih]

theorem parse_phase_congr (env env2 : Env R NT E)
    (h1 : env2.readFileSync = env.readFileSync) (h2 : env2.dirname = env.dirname)
    (h3 : env2.step = env.step) (h4 : env2.parse = env.parse) (h5 : env2.error = env.error)
    (h6 : env2.NullReporter = env.NullReporter) (tree : List FsNode) (root_path : String)
    (options : Options R) :
    parse_phase env2 tree root_path options = parse_phase env tree root_path options := by
  simp only [parse_phase, read_sources_congr env env2 h1 h2 h3,
    parse_sources_congr env env2 h4 h5 h3, h3, h6]

/-- A parse failure makes `project` throw, whatever `printer.get_exports`, the name
table, `printer.rewrite` and the collaborators of cycle resolution would do. -/
theorem project_parse_error (env env2 : Env R NT E)
    (h1 : env2.readFileSync = env.readFileSync) (h2 : env2.dirname = env.dirname)
    (h3 : env2.step = env.step) (h4 : env2.parse = env.parse) (h5 : env2.error = env.error)
    (h6 : env2.NullReporter = env.NullReporter) (h7 : env2.hasError = env.hasError)
    (tree : List FsNode) (root_path : String) (name_table : Option NT) (options : Options R)
    (h : env.hasError (parse_phase env tree root_path options).2 = true) :
    project env2 tree root_path name_table (some options) =
      Except.error (Thrown.Error "Parse error prevented project from being converted") := by
  have h8 : env2.hasError (parse_phase env2 tree root_path options).2 = true := by
    rw [parse_phase_congr env env2 h1 h2 h3 h4 h5 h6, h7]
    exact h
  simp [project, rewrite_project, h8]

theorem project_sources_length (env : Env R NT E) (tree : List FsNode) (root_path : String)
    (options : Options R) :
    (project_sources env tree root_path options).length = (source_files tree options).length := by
  simp [project_sources, read_sources_length]

theorem parse_phase_fst (env : Env R NT E) (tree : List FsNode) (root_path : String)
    (options : Options R) :
    (parse_phase env tree root_path options).1 =
      (parse_sources env
        ((project_sources env tree root_path options).zip (source_files tree options))
        (read_sources env ((source_files tree options).map (fun filename =>
          path_join root_path filename)) (options.reporter.getD env.NullReporter)).2).1 :=
  rfl

theorem parse_phase_snd (env : Env R NT E) (tree : List FsNode) (root_path : String)
    (options : Options R) :
    (parse_phase env tree root_path options).2 =
      env.step (parse_sources env
        ((project_sources env tree root_path options).zip (source_files tree options))
        (read_sources env ((source_files tree options).map (fun filename =>
          path_join root_path filename)) (options.reporter.getD env.NullReporter)).2).2
        "parse .as files" "parsing" none :=
  rfl

theorem parse_source_log (env : Env R NT E) (log : R → List String)
    (hparse : ∀ source reporter, log (env.parse source reporter).2 = log reporter ++ [source])
    (hstep : ∀ reporter name message context,
      log (env.step reporter name message context) = log reporter)
    (herror : ∀ reporter name e, log (env.error reporter name e) = log reporter)
    (source source_file : String) (reporter : R) :
    log (parse_source env source source_file reporter).2 = log reporter ++ [source] := by
  have h1 := hparse source (env.step reporter "parse .as file" ("parsing " ++ source_file)
    (some [("filename", Ast.str source_file), ("source", Ast.str source)]))
  rw [hstep] at h1
  simp only [parse_source]
  split
  · rename_i ast reporter2 heq
    rw [heq] at h1
    exact h1
  · rename_i e reporter2 heq
    rw [heq] at h1
    rw [herror]
    exact h1

theorem parse_sources_log (env : Env R NT E) (log : R → List String)
    (hparse : ∀ source reporter, log (env.parse source reporter).2 = log reporter ++ [source])
    (hstep : ∀ reporter name message context,
      log (env.step reporter name message context) = log reporter)
    (herror : ∀ reporter name e, log (env.error reporter name e) = log reporter)
    (sources : List (String × String)) : ∀ (reporter : R),
    log (parse_sources env sources reporter).2 = log reporter ++ sources.map Prod.fst := by
  induction sources with
  | nil => intro reporter; simp [parse_sources]
  | cons head rest ih =>
    intro reporter
    obtain ⟨source, source_file⟩ := head
    simp only [parse_sources, List.map_cons]
    rw [ih, parse_source_log env log hparse hstep herror]
    simp

theorem read_sources_log (env : Env R NT E) (log : R → List String)
    (hstep : ∀ reporter name message context,
      log (env.step reporter name message context) = log reporter)
    (filenames : List String) : ∀ (reporter : R),
    log (read_sources env filenames reporter).2 = log reporter := by
  induction filenames with
  | nil => intro reporter; rfl
  | cons filename rest ih =>
    intro reporter
    simp only [read_sources]
    rw [ih, hstep]

theorem parse_source_fst (env : Env R NT E) (source source_file : String) (reporter : R) :
    (parse_source env source source_file reporter).1 =
      parsed_entry (env.parse source (env.step reporter "parse .as file"
        ("parsing " ++ source_file)
        (some [("filename", Ast.str source_file), ("source", Ast.str source)]))).1 := by
  simp only [parse_source]
  split <;> rename_i heq <;> rw [heq] <;> rfl

/-- C8 as stated fails: in the project `broken_tree`, run with a reporter of the caller
whose `error` leaves `hasError` unset, `parser.parse` throws on `b.as` and `project`
does not throw: it goes on to `printer.rewrite`, which it calls on `undefined` for
`b.as`, and returns an output mapping. -/
theorem parse_error_aborts_counterexample :
    ("p/b.as" ∈ project_sources silent_env broken_tree "p" silent_options ∧
      ∀ reporter, ∃ e, (silent_env.parse "p/b.as" reporter).1 = Except.error e) ∧
    ∃ output, project silent_env broken_tree "p" none (some silent_options) =
        Except.ok output ∧
      output.keys = ["a.js", "b.js", "c.js"] ∧
      output.get "b.js" = (silent_env.rewrite Ast.undefined [] false).1 :=
  ⟨⟨by decide, fun _ => ⟨"syntax error", rfl⟩⟩, _, rfl, by decide, by decide⟩

/-- C8, amended: for every project run with a reporter whose `error` raises `hasError`
and whose `hasError`, once raised, stays raised through `step` and through the parser,
and in which `parser.parse` throws on at least one file, `project` still calls
`parser.parse` on every file (a failure on one file does not stop the parsing of the
files after it: whatever a reporter records of the calls of `parser.parse`, at the test
of `hasError` it has recorded the sources of all files in order, and the entry of
`source_asts` for each file is the AST `parser.parse` returned for its source, or
`undefined` where it threw), and then fails with the error "Parse error prevented
project from being converted", without returning an output mapping and whatever
`printer.get_exports`, `name_table.add`, `name_table.create_package` and
`printer.rewrite` would do, none of them being called. -/
theorem parse_error_aborts (env : Env R NT E) (tree : List FsNode)
    (root_path : String) (name_table : Option NT) (options : Options R)
    (herror : ∀ reporter name e, env.hasError (env.error reporter name e) = true)
    (hstep : ∀ reporter name message context, env.hasError reporter = true →
      env.hasError (env.step reporter name message context) = true)
    (hparse : ∀ source reporter, env.hasError reporter = true →
      env.hasError (env.parse source reporter).2 = true)
    (hthrows : ∃ source ∈ project_sources env tree root_path options,
      ∀ reporter, ∃ e, (env.parse source reporter).1 = Except.error e) :
    project env tree root_path name_table (some options) =
      Except.error (Thrown.Error "Parse error prevented project from being converted") ∧
    (∀ (get_exports : Ast → List (String × Option Symbol)) (add : NT → String → Symbol → NT)
      (create_package : NT → String → NT) (rewrite : Ast → NT → R → Ast × R),
      project
        { env with
          get_exports := get_exports, add := add, create_package := create_package,
          rewrite := rewrite }
        tree root_path name_table (some options) =
      Except.error (Thrown.Error "Parse error prevented project from being converted")) ∧
    (∀ (log : R → List String),
      (∀ source reporter, log (env.parse source reporter).2 = log reporter ++ [source]) →
      (∀ reporter name message context,
        log (env.step reporter name message context) = log reporter) →
      (∀ reporter name e, log (env.error reporter name e) = log reporter) →
      log (parse_phase env tree root_path options).2 =
        log (options.reporter.getD env.NullReporter) ++
          project_sources env tree root_path options) ∧
    (project_sources env tree root_path options).length =
      (source_files tree options).length ∧
    (∀ (j : Nat) (source : String),
      (project_sources env tree root_path options)[j]? = some source →
      ∃ reporter, (parse_phase env tree root_path options).1[j]? =
        some (parsed_entry (env.parse source reporter).1)) := by
  have hlen := project_sources_length env tree root_path options
  have hflag : env.hasError (parse_phase env tree root_path options).2 = true := by
    rw [parse_phase_snd]
    apply hstep
    apply parse_sources_throws env herror hstep hparse
    obtain ⟨source, hmem, hthrow⟩ := hthrows
    obtain ⟨j, hj⟩ := List.mem_iff_getElem?.mp hmem
    have hjlt : j < (source_files tree options).length := by
      rw [← hlen]
      exact (List.getElem?_eq_some.mp hj).1
    exact ⟨(source, (source_files tree options)[j]),
      List.getElem?_mem (List.getElem?_zip_eq_some.mpr ⟨hj, List.getElem?_eq_getElem hjlt⟩),
      hthrow⟩
  refine ⟨?_, ?_, ?_, hlen, ?_⟩
  · exact project_parse_error env env rfl rfl rfl rfl rfl rfl rfl tree root_path name_table
      options hflag
  · intro get_exports add create_package rewrite
    exact project_parse_error env
      { env with
        get_exports := get_exports, add := add, create_package := create_package,
        rewrite := rewrite }
      rfl rfl rfl rfl rfl rfl rfl tree root_path name_table options hflag
  · intro log hlparse hlstep hlerror
    rw [parse_phase_snd, hlstep, parse_sources_log env log hlparse hlstep hlerror,
      read_sources_log env log hlstep, List.map_fst_zip _ _ (Nat.le_of_eq hlen)]
  · intro j source hj
    have hjlt : j < (source_files tree options).length := by
      rw [← hlen]
      exact (List.getElem?_eq_some.mp hj).1
    obtain ⟨reporter, hr⟩ := parse_sources_get env
      ((project_sources env tree root_path options).zip (source_files tree options))
      (read_sources env ((source_files tree options).map (fun filename =>
        path_join root_path filename)) (options.reporter.getD env.NullReporter)).2 j
      (source, (source_files tree options)[j])
      (List.getElem?_zip_eq_some.mpr ⟨hj, List.getElem?_eq_getElem hjlt⟩)
    refine ⟨env.step reporter "parse .as file" ("parsing " ++ (source_files tree options)[j])
      (some [("filename", Ast.str (source_files tree options)[j]),
        ("source", Ast.str source)]), ?_⟩
    rw [parse_phase_fst, hr, parse_source_fst]

/-- C8, amended, at the project `broken_tree` with the reporter of `broken_env`, whose
`error` raises `hasError`: the parser throws on `b.as`, the files `a.as` and `c.as` are
parsed all the same, and `project` throws the parse error. -/
theorem parse_error_aborts_witness :
    (∃ source ∈ project_sources broken_env broken_tree "p" demo_options,
      ∀ reporter, ∃ e, (broken_env.parse source reporter).1 = Except.error e) ∧
    (parse_phase broken_env broken_tree "p" demo_options).1 =
      [Ast.arr [.str "toplevel", .str "p/a.as"], Ast.undefined,
        Ast.arr [.str "toplevel", .str "p/c.as"]] ∧
    (project broken_env broken_tree "p" none (some demo_options) =
      Except.error (Thrown.Error "Parse error prevented project from being converted") ∧
    (∀ (get_exports : Ast → List (String × Option Symbol))
      (add : List NameTableCall → String → Symbol → List NameTableCall)
      (create_package : List NameTableCall → String → List NameTableCall)
      (rewrite : Ast → List NameTableCall → Bool → Ast × Bool),
      project
        { broken_env with
          get_exports := get_exports, add := add, create_package := create_package,
          rewrite := rewrite }
        broken_tree "p" none (some demo_options) =
      Except.error (Thrown.Error "Parse error prevented project from being converted")) ∧
    (∀ (log : Bool → List String),
      (∀ source reporter,
        log (broken_env.parse source reporter).2 = log reporter ++ [source]) →
      (∀ reporter name message context,
        log (broken_env.step reporter name message context) = log reporter) →
      (∀ reporter name e, log (broken_env.error reporter name e) = log reporter) →
      log (parse_phase broken_env broken_tree "p" demo_options).2 =
        log (demo_options.reporter.getD broken_env.NullReporter) ++
          project_sources broken_env broken_tree "p" demo_options) ∧
    (project_sources broken_env broken_tree "p" demo_options).length =
      (source_files broken_tree demo_options).length ∧
    (∀ (j : Nat) (source : String),
      (project_sources broken_env broken_tree "p" demo_options)[j]? = some source →
      ∃ reporter, (parse_phase broken_env broken_tree "p" demo_options).1[j]? =
        some (parsed_entry (broken_env.parse source reporter).1))) :=
  ⟨⟨"p/b.as", by decide, fun reporter => ⟨"syntax error", rfl⟩⟩, by decide,
    parse_error_aborts broken_env broken_tree "p" none demo_options
      (fun reporter _ _ => by cases reporter <;> rfl)
      (fun reporter _ _ _ h => h)
      (fun source reporter h => by
        show (broken_env.parse source reporter).2 = true
        simp only [broken_env, demoEnv]
        split <;> exact h)
      ⟨"p/b.as", by decide, fun reporter => ⟨"syntax error", rfl⟩⟩⟩

/-! ## The claim about `get_files` -/

/-- C10 as stated fails: with `ignore_dot_files` set, the file `x.as` in the directory
`.hidden` is left out of the source files although its file name ends in `.as` and does
not begin with a dot. -/
theorem source_files_counterexample :
    [".hidden", "x.as"] ∈ files_under dot_tree ∧
    endsWith "x.as" ".as" = true ∧
    startsWithDot "x.as" = false ∧
    dot_options.ignore_dot_files = true ∧
    rel_path [".hidden", "x.as"] ∉ source_files dot_tree dot_options ∧
    source_files dot_tree dot_options = ["lib/y.as"] := by
  decide

/-- C10, amended: for every well-formed directory tree under the root, the list of
source files `project` converts consists of exactly the plain files at any depth whose
name ends in `.as`, each given once as its path relative to the root, in the order of
the traversal; when `options.ignore_dot_files` is set the files left out are exactly
those for which the file name or the name of a directory on the way from the root to
the file begins with a dot, and when it is false no file whose name ends in `.as` is
left out. -/
theorem source_files_listing (tree : List FsNode) (options : Options R)
    (hwf : wf_children tree = true) :
    source_files tree options =
      ((files_under tree).filter (fun names =>
        endsWith (names.getLastD "") ".as" &&
          !(options.ignore_dot_files && names.any startsWithDot))).map rel_path ∧
    (source_files tree options).Nodup ∧
    (∀ path, path ∈ source_files tree options ↔
      ∃ names ∈ files_under tree, rel_path names = path ∧
        endsWith (names.getLastD "") ".as" = true ∧
        (options.ignore_dot_files = true → ∀ name ∈ names, startsWithDot name = false)) ∧
    (options.ignore_dot_files = false → ∀ names ∈ files_under tree,
      endsWith (names.getLastD "") ".as" = true → rel_path names ∈ source_files tree options) := by
  have heq := source_files_eq tree options hwf
  have hmem : ∀ path, path ∈ source_files tree options ↔
      ∃ names ∈ files_under tree, rel_path names = path ∧
        endsWith (names.getLastD "") ".as" = true ∧
        (options.ignore_dot_files = true → ∀ name ∈ names, startsWithDot name = false) := by
    intro path
    rw [heq, List.mem_map]
    constructor
    · rintro ⟨names, h1, h2⟩
      obtain ⟨h3, h4⟩ := List.mem_filter.mp h1
      simp only [is_source, Bool.and_eq_true, Bool.not_eq_true', Bool.and_eq_false_iff] at h4
      refine ⟨names, h3, h2, h4.1, ?_⟩
      intro hi name hn
      rcases h4.2 with h5 | h5
      · rw [hi] at h5
        cases h5
      · cases hs : startsWithDot name
        · rfl
        · have : names.any startsWithDot = true := List.any_eq_true.mpr ⟨name, hn, hs⟩
          rw [this] at h5
          cases h5
    · rintro ⟨names, h1, h2, h3, h4⟩
      refine ⟨names, List.mem_filter.mpr ⟨h1, ?_⟩, h2⟩
      simp only [is_source, Bool.and_eq_true, Bool.not_eq_true', Bool.and_eq_false_iff]
      refine ⟨h3, ?_⟩
      cases hi : options.ignore_dot_files
      · exact Or.inl rfl
      · right
        cases ha : names.any startsWithDot
        · rfl
        · obtain ⟨name, hn, hs⟩ := List.any_eq_true.mp ha
          rw [h4 hi name hn] at hs
          cases hs
  refine ⟨heq, source_files_nodup tree options hwf, hmem, ?_⟩
  intro hi names hn hs
  exact (hmem _).mpr ⟨names, hn, rfl, hs, fun h => by rw [hi] at h; cases h⟩

/-- C10, amended, at the tree `dot_tree` with `ignore_dot_files` set: only `lib/y.as` is
a source file. -/
theorem source_files_listing_witness :
    wf_children dot_tree = true ∧
    source_files dot_tree dot_options =
      ((files_under dot_tree).filter (fun names =>
        endsWith (names.getLastD "") ".as" &&
          !(dot_options.ignore_dot_files && names.any startsWithDot))).map rel_path ∧
    (source_files dot_tree dot_options).Nodup ∧
    (∀ path, path ∈ source_files dot_tree dot_options ↔
      ∃ names ∈ files_under dot_tree, rel_path names = path ∧
        endsWith (names.getLastD "") ".as" = true ∧
        (dot_options.ignore_dot_files = true →
          ∀ name ∈ names, startsWithDot name = false)) ∧
    (dot_options.ignore_dot_files = false → ∀ names ∈ files_under dot_tree,
      endsWith (names.getLastD "") ".as" = true →
      rel_path names ∈ source_files dot_tree dot_options) :=
  ⟨by decide, source_files_listing dot_tree dot_options (by decide)⟩

end AsJam
